import Mathlib

/-!
Formalization of the Espresso sequencer block payload codec
(sequencer/src/block/full_payload/payload.rs) together with the wire
format of the namespace table and the per-namespace transaction tables.

Bytes are modelled as natural numbers; every writer produces values
below 256 and every reader reduces mod 256, matching u8 semantics.
Machine integers (usize, u32, u64) are modelled as Nat, with explicit
mod or bound hypotheses at the points where the fixed-width wire fields
matter.  The width of all offset and count fields is W = 4 bytes.
-/

namespace EspressoBlock

/-- Little-endian encoding of a natural number in exactly `w` bytes;
the value is taken mod 256 ^ w, as writing into a fixed-width field does. -/
def toBytesLE : Nat → Nat → List Nat
  | 0, _ => []
  | w + 1, n => n % 256 :: toBytesLE w (n / 256)

/-- Little-endian interpretation of a byte list; entries are reduced mod 256. -/
def fromBytesLE : List Nat → Nat
  | [] => 0
  | b :: bs => b % 256 + 256 * fromBytesLE bs

@[simp] theorem length_toBytesLE (w n : Nat) : (toBytesLE w n).length = w := by
  induction w generalizing n with
  | zero => rfl
  | succ w ih => simp [toBytesLE, ih]

theorem fromBytesLE_toBytesLE (w n : Nat) :
    fromBytesLE (toBytesLE w n) = n % 256 ^ w := by
  induction w generalizing n with
  | zero => simp [toBytesLE, fromBytesLE, Nat.mod_one]
  | succ w ih =>
    simp only [toBytesLE, fromBytesLE, ih]
    rw [pow_succ, mul_comm (256 ^ w) 256, Nat.mod_mul, Nat.mod_mod_of_dvd _ dvd_rfl]

theorem fromBytesLE_toBytesLE_of_lt {w n : Nat} (h : n < 256 ^ w) :
    fromBytesLE (toBytesLE w n) = n := by
  rw [fromBytesLE_toBytesLE, Nat.mod_eq_of_lt h]

/-- Read `width` bytes starting at `start` and interpret them little-endian. -/
def readBytesLE (bs : List Nat) (start width : Nat) : Nat :=
  fromBytesLE ((bs.drop start).take width)

/-- Width in bytes of every offset and count field of the wire format (u32). -/
def W : Nat := 4

/-- Width in bytes of a namespace id field (u64). -/
def NS_ID_BYTE_LEN : Nat := 8

/-- Transaction: a namespace id (a u64 in the source, kept as a Nat; the
field is called namespace in the source, shortened here to ns because
namespace is a Lean keyword) together with an opaque payload byte string. -/
structure Transaction where
  ns : Nat
  payload : List Nat
  deriving DecidableEq, Repr

/-- Modelled from the spec: the namespace table is a byte string; the reader
functions below (count, ids, offsets) are the clamped parsers of spec section
4.3.  The Rust module ns_table.rs backing NsTable is not part of the sources
here; only its caller payload.rs is. -/
structure NsTable where
  bytes : List Nat
  deriving DecidableEq, Repr

namespace NsTable

/-- Modelled from the spec: NsTable.encode returns the table bytes. -/
def encode (t : NsTable) : List Nat := t.bytes

/-- Modelled from the spec: number of namespace entries, the declared count
clamped so that the entry segment fits in the byte string. -/
def numNamespaces (t : NsTable) : Nat :=
  min (fromBytesLE (t.bytes.take W)) ((t.bytes.length - W) / (NS_ID_BYTE_LEN + W))

/-- Raw namespace id of the i-th entry (unclamped field read). -/
def readNsIdRaw (t : NsTable) (i : Nat) : Nat :=
  readBytesLE t.bytes (W + i * (NS_ID_BYTE_LEN + W)) NS_ID_BYTE_LEN

/-- Modelled from the spec: namespace id lookup, absent when the index is not
below the number of entries. -/
def readNsId (t : NsTable) (i : Nat) : Option Nat :=
  if i < t.numNamespaces then some (t.readNsIdRaw i) else none

/-- Raw end offset of the i-th entry (unclamped field read). -/
def readNsOffsetRaw (t : NsTable) (i : Nat) : Nat :=
  readBytesLE t.bytes (W + i * (NS_ID_BYTE_LEN + W) + NS_ID_BYTE_LEN) W

/-- Modelled from the spec: the byte range of the i-th namespace inside the
ns_payloads blob: from the previous entry's end offset (0 for the first) to
this entry's end offset, clamped into the payload and monotonized. -/
def nsRange (t : NsTable) (i : Nat) (total : Nat) : Nat × Nat :=
  let e := min (t.readNsOffsetRaw i) total
  let p := if i = 0 then 0 else min (t.readNsOffsetRaw (i - 1)) total
  (min p e, e)

end NsTable

/-- Modelled from the spec: the number of transactions declared by a namespace
payload's tx table, clamped so the offsets segment fits. -/
def numTxsOf (b : List Nat) : Nat :=
  min (fromBytesLE (b.take W)) ((b.length - W) / W)

/-- Raw end offset of the j-th transaction inside a namespace payload
(unclamped read of the tx table entry at byte W + j * W). -/
def txOffsetRaw (b : List Nat) (j : Nat) : Nat :=
  readBytesLE b (W + j * W) W

/-- Modelled from the spec: the j-th transaction's byte range relative to the
start of the concatenated tx payloads: end offsets are read from the table
(0 for the start of tx 0), clamped to the available payload bytes and
monotonized. -/
def txRange (b : List Nat) (j : Nat) : Nat × Nat :=
  let n := numTxsOf b
  let bound := b.length - (W + n * W)
  let e := min (txOffsetRaw b j) bound
  let s := if j = 0 then 0 else min (txOffsetRaw b (j - 1)) bound
  (min s e, e)

/-- Modelled from the spec: materialize the j-th transaction of a namespace
payload, absent exactly when j is at or above the clamped tx count. -/
def exportTx (nsId : Nat) (b : List Nat) (j : Nat) : Option Transaction :=
  if j < numTxsOf b then
    let n := numTxsOf b
    let r := txRange b j
    some ⟨nsId, ((b.drop (W + n * W + r.1)).take (r.2 - r.1))⟩
  else none

/-- Raw payload data for an entire block: the concatenated namespace payload
bytes together with the namespace table carried as metadata
(payload.rs, struct Payload). -/
structure Payload where
  raw_payload : List Nat
  ns_table : NsTable
  deriving DecidableEq, Repr

/-- Transaction address inside a block: namespace index and tx index. -/
structure Index where
  ns : Nat
  tx : Nat
  deriving DecidableEq, Repr

namespace Payload

/-- Byte length of the ns_payloads blob (payload.rs, byte_len). -/
def byteLen (p : Payload) : Nat := p.raw_payload.length

/-- View of the i-th namespace's bytes, sliced per the table's clamped range
(payload.rs, ns_payload / read_ns_payload). -/
def nsPayloadBytes (p : Payload) (i : Nat) : List Nat :=
  let r := p.ns_table.nsRange i p.byteLen
  (p.raw_payload.drop r.1).take (r.2 - r.1)

/-- Transaction lookup (payload.rs, Payload::transaction): resolve the
namespace id, slice the namespace payload, export the transaction. -/
def transaction (p : Payload) (idx : Index) : Option Transaction :=
  match p.ns_table.readNsId idx.ns with
  | none => none
  | some nsId => exportTx nsId (p.nsPayloadBytes idx.ns) idx.tx

/-- Index stream of the block iterator (namespace_payload Iter): namespace
indices in table order, and for each one the tx indices below its clamped
tx count, in order. -/
def iterIndices (p : Payload) : List Index :=
  (List.range p.ns_table.numNamespaces).flatMap
    (fun i => (List.range (numTxsOf (p.nsPayloadBytes i))).map (fun j => ⟨i, j⟩))

/-- Materialized transaction stream (payload.rs, transactions / enumerate). -/
def transactionsList (p : Payload) : List Transaction :=
  p.iterIndices.filterMap p.transaction

/-- Number of transactions, computed by consuming the iterator
(payload.rs, QueryablePayload::len). -/
def qpLen (p : Payload) : Nat := p.iterIndices.length

/-- Transaction count as a u64 (payload.rs, TestableBlock::txn_count). -/
def txnCount (p : Payload) : Nat := p.qpLen % 2 ^ 64

/-- Reconstruction after transport: a zero-validation move
(payload.rs, BlockPayload::from_bytes). -/
def fromBytes (bytes : List Nat) (t : NsTable) : Payload :=
  ⟨bytes, t⟩

/-- Encoded bytes handed to VID: the raw ns_payloads only
(payload.rs, EncodeBytes for Payload). -/
def encode (p : Payload) : List Nat := p.raw_payload

end Payload

/-! Builder side: payload.rs, Payload::from_transactions_sync.  The
per-namespace builders live in a HashMap; grouping of transactions by key is
deterministic, but the serialization loop iterates the HashMap, whose order
is an arbitrary permutation of the keys (randomized per process in Rust).
That iteration order is made explicit below as an order parameter. -/

/-- Modelled from the spec: NsTableBuilder::fixed_overhead_byte_len, the W
bytes of the namespace count field. -/
def nsTableFixedOverhead : Nat := W

/-- Modelled from the spec: NsTableBuilder::ns_overhead_byte_len, one table
entry of 8 + W bytes. -/
def nsTableNsOverhead : Nat := NS_ID_BYTE_LEN + W

/-- Modelled from the spec: NsPayloadBuilder::fixed_overhead_byte_len, the W
bytes of the tx count field. -/
def nsPayloadFixedOverhead : Nat := W

/-- Modelled from the spec: NsPayloadBuilder::tx_overhead_byte_len, one tx
table entry of W bytes. -/
def nsPayloadTxOverhead : Nat := W

/-- Lookup in an association list of per-namespace builders
(HashMap::contains_key / HashMap::entry on the grouping side, which is
deterministic: keyed access does not depend on iteration order). -/
def findNs : List (Nat × List Transaction) → Nat → Option (List Transaction)
  | [], _ => none
  | e :: rest, k => if e.1 = k then some e.2 else findNs rest k

/-- Append a transaction to its namespace's builder, creating the builder on
first appearance (HashMap::entry(..).or_default() followed by append_tx). -/
def addTx : List (Nat × List Transaction) → Transaction → List (Nat × List Transaction)
  | [], tx => [(tx.ns, [tx])]
  | e :: rest, tx =>
    if e.1 = tx.ns then (e.1, e.2 ++ [tx]) :: rest else e :: addTx rest tx

/-- Grouping of a transaction list into per-namespace builders. -/
def groupTxs (txs : List Transaction) : List (Nat × List Transaction) :=
  List.foldl addTx [] txs

/-- The builder loop of from_transactions_sync: accumulate the running block
byte length, add each transaction's payload length plus one tx table entry,
plus the table-entry and tx-count overhead on a namespace's first
appearance; stop at the first transaction that would push the total over the
budget.  State: remaining input, running byte length, builders so far. -/
def buildLoop (maxLen : Nat) : List Transaction → Nat → List (Nat × List Transaction) → List (Nat × List Transaction)
  | [], _, acc => acc
  | tx :: rest, used, acc =>
    let used' := used + tx.payload.length + nsPayloadTxOverhead +
      (if (findNs acc tx.ns).isSome then 0 else nsTableNsOverhead + nsPayloadFixedOverhead)
    if maxLen < used' then acc
    else buildLoop maxLen rest used' (addTx acc tx)

/-- Cumulative end offsets of a transaction list, measured from the start of
the concatenated tx payloads (the offsets recorded by NsPayloadBuilder). -/
def cumEnds : List Transaction → Nat → List Nat
  | [], _ => []
  | tx :: rest, acc => (acc + tx.payload.length) :: cumEnds rest (acc + tx.payload.length)

/-- Modelled from the spec: NsPayloadBuilder::into_bytes, the serialized
namespace payload: tx count, then the end offsets, then the tx payloads. -/
def nsPayloadBuilderBytes (txs : List Transaction) : List Nat :=
  toBytesLE W txs.length ++ (cumEnds txs 0).flatMap (toBytesLE W) ++
    txs.flatMap (fun tx => tx.payload)

/-- Modelled from the spec: NsTableBuilder serialization, the entry count
followed by the (namespace id, end offset) entries. -/
def nsTableBytes (entries : List (Nat × Nat)) : List Nat :=
  toBytesLE W entries.length ++
    entries.flatMap (fun e => toBytesLE NS_ID_BYTE_LEN e.1 ++ toBytesLE W e.2)

/-- Serialization loop of from_transactions_sync: append each namespace's
bytes to the block payload and record (namespace id, cumulative length) as a
table entry. -/
def serializeLoop : List (Nat × List Transaction) → List Nat → List (Nat × Nat) → List Nat × List (Nat × Nat)
  | [], pay, ents => (pay, ents)
  | e :: rest, pay, ents =>
    let pay' := pay ++ nsPayloadBuilderBytes e.2
    serializeLoop rest pay' (ents ++ [(e.1, pay'.length)])

/-- Rearrangement of the builders into the HashMap's iteration order: the
iteration yields, for each key of the order, that key's entry. -/
def reorder (builders : List (Nat × List Transaction)) (order : List Nat) : List (Nat × List Transaction) :=
  order.filterMap (fun k => (findNs builders k).map (fun v => (k, v)))

/-- An admissible HashMap iteration order: each stored key exactly once, in
some permutation. -/
def ValidOrder (builders : List (Nat × List Transaction)) (order : List Nat) : Prop :=
  order.Perm (builders.map Prod.fst)

instance (builders : List (Nat × List Transaction)) (order : List Nat) :
    Decidable (ValidOrder builders order) :=
  inferInstanceAs (Decidable (order.Perm (builders.map Prod.fst)))

/-- Builder error kind (crate::Error::BlockBuilding). -/
inductive BuilderError where
  | BlockBuilding
  deriving DecidableEq, Repr

instance {ε α : Type} [DecidableEq ε] [DecidableEq α] : DecidableEq (Except ε α) :=
  fun a b =>
    match a, b with
    | .ok x, .ok y =>
      if h : x = y then isTrue (by rw [h]) else isFalse (fun hh => h (Except.ok.inj hh))
    | .ok _, .error _ => isFalse (fun hh => Except.noConfusion hh)
    | .error _, .ok _ => isFalse (fun hh => Except.noConfusion hh)
    | .error e, .error f =>
      if h : e = f then isTrue (by rw [h]) else isFalse (fun hh => h (Except.error.inj hh))

/-- The body of from_transactions_sync: refuse when max_block_size does not
fit a usize, otherwise run the builder loop from the fixed table overhead
and serialize the builders in the HashMap's iteration order. -/
def fromTransactionsWithOrder (txs : List Transaction) (maxBlockSize usizeMax : Nat)
    (order : List Nat) : Except BuilderError (Payload × NsTable) :=
  if usizeMax < maxBlockSize then .error .BlockBuilding
  else
    let builders := buildLoop maxBlockSize txs nsTableFixedOverhead []
    let s := serializeLoop (reorder builders order) [] []
    let t : NsTable := ⟨nsTableBytes s.2⟩
    .ok (⟨s.1, t⟩, t)

/-- Modelled from the spec: the default chain config's max_block_size used by
Payload::empty() through NodeState::default(); its concrete value is
irrelevant, any representable value produces the same empty block. -/
def defaultMaxBlockSize : Nat := 30720

/-- Modelled here: usize::MAX on the reference 64-bit target. -/
def USIZE_MAX : Nat := 2 ^ 64 - 1

/-- Payload::empty(): build from no transactions with default state and
return the payload together with its namespace table. -/
def payloadEmpty : Payload × NsTable :=
  match fromTransactionsWithOrder [] defaultMaxBlockSize USIZE_MAX [] with
  | .ok v => v
  | .error _ => (⟨[], ⟨[]⟩⟩, ⟨[]⟩)

/-- Running block byte length of a transaction prefix: the fixed table
overhead plus, per transaction, its payload and tx table entry, plus the
per-namespace overhead on first appearance (tracked by the seen set). -/
def costLoop : List Transaction → List Nat → Nat → Nat
  | [], _, used => used
  | tx :: rest, seen, used =>
    costLoop rest (if tx.ns ∈ seen then seen else seen ++ [tx.ns])
      (used + tx.payload.length + nsPayloadTxOverhead +
        (if tx.ns ∈ seen then 0 else nsTableNsOverhead + nsPayloadFixedOverhead))

/-- Total accounted block byte length of a transaction list. -/
def blockCost (txs : List Transaction) : Nat :=
  costLoop txs [] nsTableFixedOverhead

/-- First-appearance deduplication, preserving order of first occurrence. -/
def dedupFirstAux : List Nat → List Nat → List Nat
  | [], _ => []
  | x :: xs, seen =>
    if x ∈ seen then dedupFirstAux xs seen else x :: dedupFirstAux xs (seen ++ [x])

/-- Namespaces of a transaction list in order of first appearance. -/
def nsFirstAppearance (txs : List Transaction) : List Nat :=
  dedupFirstAux (txs.map Transaction.ns) []

/-! SHA-256 over byte lists, for the builder commitment
(payload.rs, builder_commitment uses sha2::Sha256). -/

/-- Addition mod 2^32. -/
def add32 (a b : Nat) : Nat := (a + b) % 2 ^ 32

/-- Right rotation of a 32-bit word. -/
def rotr32 (x n : Nat) : Nat := (x / 2 ^ n + x % 2 ^ n * 2 ^ (32 - n)) % 2 ^ 32

/-- Logical right shift of a 32-bit word. -/
def shr32 (x n : Nat) : Nat := x / 2 ^ n

/-- Bitwise complement within 32 bits (inputs kept below 2^32). -/
def not32 (x : Nat) : Nat := 2 ^ 32 - 1 - x % 2 ^ 32

/-- Big-endian encoding in exactly `w` bytes. -/
def toBytesBE (w n : Nat) : List Nat := (toBytesLE w n).reverse

/-- Big-endian interpretation of a byte list. -/
def fromBytesBE (bs : List Nat) : Nat := fromBytesLE bs.reverse

/-- SHA-256 round constants (fractional parts of the cube roots of the
first 64 primes, as 32-bit words, written in decimal). -/
def shaK : List Nat :=
  [1116352408, 1899447441, 3049323471, 3921009573, 961987163, 1508970993,
   2453635748, 2870763221, 3624381080, 310598401, 607225278, 1426881987,
   1925078388, 2162078206, 2614888103, 3248222580, 3835390401, 4022224774,
   264347078, 604807628, 770255983, 1249150122, 1555081692, 1996064986,
   2554220882, 2821834349, 2952996808, 3210313671, 3336571891, 3584528711,
   113926993, 338241895, 666307205, 773529912, 1294757372, 1396182291,
   1695183700, 1986661051, 2177026350, 2456956037, 2730485921, 2820302411,
   3259730800, 3345764771, 3516065817, 3600352804, 4094571909, 275423344,
   430227734, 506948616, 659060556, 883997877, 958139571, 1322822218,
   1537002063, 1747873779, 1955562222, 2024104815, 2227730452, 2361852424,
   2428436474, 2756734187, 3204031479, 3329325298]

/-- SHA-256 initial hash state (fractional parts of the square roots of the
first 8 primes, as 32-bit words, written in decimal). -/
def shaH0 : List Nat :=
  [1779033703, 3144134277, 1013904242, 2773480762,
   1359893119, 2600822924, 528734635, 1541459225]

/-- Lowercase sigma 0. -/
def ssig0 (x : Nat) : Nat := rotr32 x 7 ^^^ rotr32 x 18 ^^^ shr32 x 3

/-- Lowercase sigma 1. -/
def ssig1 (x : Nat) : Nat := rotr32 x 17 ^^^ rotr32 x 19 ^^^ shr32 x 10

/-- Uppercase Sigma 0. -/
def bsig0 (x : Nat) : Nat := rotr32 x 2 ^^^ rotr32 x 13 ^^^ rotr32 x 22

/-- Uppercase Sigma 1. -/
def bsig1 (x : Nat) : Nat := rotr32 x 6 ^^^ rotr32 x 11 ^^^ rotr32 x 25

/-- Choice function. -/
def chFn (e f g : Nat) : Nat := (e &&& f) ^^^ (not32 e &&& g)

/-- Majority function. -/
def majFn (a b c : Nat) : Nat := (a &&& b) ^^^ (a &&& c) ^^^ (b &&& c)

/-- Extend a message schedule by one word. -/
def scheduleStep (ws : List Nat) : List Nat :=
  ws ++ [add32 (add32 (ssig1 (ws.getD (ws.length - 2) 0)) (ws.getD (ws.length - 7) 0))
    (add32 (ssig0 (ws.getD (ws.length - 15) 0)) (ws.getD (ws.length - 16) 0))]

/-- Iterate the schedule extension. -/
def fullSchedule (ws : List Nat) : Nat → List Nat
  | 0 => ws
  | k + 1 => fullSchedule (scheduleStep ws) k

/-- One SHA-256 compression round. -/
def shaRound (st : List Nat) (kw : Nat × Nat) : List Nat :=
  let a := st.getD 0 0
  let b := st.getD 1 0
  let c := st.getD 2 0
  let d := st.getD 3 0
  let e := st.getD 4 0
  let f := st.getD 5 0
  let g := st.getD 6 0
  let h := st.getD 7 0
  let t1 := (h + bsig1 e + chFn e f g + kw.1 + kw.2) % 2 ^ 32
  let t2 := (bsig0 a + majFn a b c) % 2 ^ 32
  [(t1 + t2) % 2 ^ 32, a, b, c, (d + t1) % 2 ^ 32, e, f, g]

/-- Compress one 64-byte chunk into the running state. -/
def compressChunk (st : List Nat) (chunk : List Nat) : List Nat :=
  let ws0 := (List.range 16).map (fun i => fromBytesBE ((chunk.drop (4 * i)).take 4))
  let ws := fullSchedule ws0 48
  let st' := (shaK.zip ws).foldl shaRound st
  (st.zip st').map (fun p => add32 p.1 p.2)

/-- Split a byte list into 64-byte chunks. -/
def chunks64 : List Nat → List (List Nat)
  | [] => []
  | b :: rest => (b :: rest).take 64 :: chunks64 ((b :: rest).drop 64)
termination_by l => l.length
decreasing_by
  simp only [List.length_drop, List.length_cons]
  omega

/-- SHA-256 padding: the 0x80 byte, zeros to 56 mod 64, the bit length. -/
def shaPad (msg : List Nat) : List Nat :=
  msg ++ [128] ++ List.replicate ((64 - (msg.length + 9) % 64) % 64) 0 ++
    toBytesBE 8 (8 * msg.length)

/-- SHA-256 digest of a byte list. -/
def sha256 (msg : List Nat) : List Nat :=
  ((chunks64 (shaPad msg)).foldl compressChunk shaH0).flatMap (toBytesBE 4)

/-- Builder commitment (payload.rs, builder_commitment): SHA-256 over the
three u64 LE lengths followed by the payload bytes, the encoded namespace
table and the encoded metadata; the streamed digest updates hash the
concatenation of their arguments. -/
def builderCommitment (p : Payload) (meta : NsTable) : List Nat :=
  sha256 (toBytesLE 8 p.raw_payload.length ++
    toBytesLE 8 p.ns_table.encode.length ++
    toBytesLE 8 meta.encode.length ++
    p.raw_payload ++ p.ns_table.encode ++ meta.encode)

/-! Generic list helpers. -/

theorem drop_append_len {α : Type} (l1 l2 : List α) {n : Nat} (h : l1.length = n) :
    (l1 ++ l2).drop n = l2 := by
  subst h; exact List.drop_left l1 l2

theorem take_append_len {α : Type} (l1 l2 : List α) {n : Nat} (h : l1.length = n) :
    (l1 ++ l2).take n = l1 := by
  subst h; exact List.take_left l1 l2

theorem length_flatMap_const {α : Type} (l : List α) (f : α → List Nat) (w : Nat)
    (h : ∀ a ∈ l, (f a).length = w) : (l.flatMap f).length = w * l.length := by
  induction l with
  | nil => simp
  | cons a rest ih =>
    simp only [List.flatMap_cons, List.length_append, List.length_cons]
    rw [h a (by simp), ih (fun b hb => h b (by simp [hb]))]
    ring

/-- Dropping to the start of the i-th piece of a concatenation exposes that
piece followed by the remaining pieces. -/
theorem flatMap_drop_to {α : Type} (f : α → List Nat) (d : α) :
    ∀ (l : List α) (i : Nat), i < l.length →
      (l.flatMap f).drop (((l.take i).map (fun a => (f a).length)).sum) =
        f (l.getD i d) ++ (l.drop (i + 1)).flatMap f := by
  intro l
  induction l with
  | nil => intro i hi; simp at hi
  | cons a rest ih =>
    intro i hi
    cases i with
    | zero => simp
    | succ i =>
      simp only [List.take_succ_cons, List.map_cons, List.sum_cons, List.flatMap_cons,
        List.getD_cons_succ, List.drop_succ_cons]
      rw [← List.drop_drop, drop_append_len (f a) _ rfl]
      exact ih i (by simpa using hi)

theorem sum_map_len_const {α : Type} (f : α → List Nat) (w : Nat)
    (hw : ∀ a, (f a).length = w) (l : List α) :
    (l.map (fun a => (f a).length)).sum = w * l.length := by
  induction l with
  | nil => simp
  | cons a rest ih => simp [hw a, ih]; ring

/-- Fixed-width version of the previous lemma. -/
theorem flatMap_drop_to_const {α : Type} (f : α → List Nat) (d : α) (w : Nat)
    (hw : ∀ a, (f a).length = w) (l : List α) (i : Nat) (hi : i < l.length) :
    (l.flatMap f).drop (w * i) = f (l.getD i d) ++ (l.drop (i + 1)).flatMap f := by
  have h := flatMap_drop_to f d l i hi
  have hsum : ((l.take i).map (fun a => (f a).length)).sum = w * i := by
    rw [sum_map_len_const f w hw, List.length_take, Nat.min_eq_left (Nat.le_of_lt hi)]
  rwa [hsum] at h

theorem filterMap_all_some {α β : Type} (f : α → Option β) :
    ∀ (l : List α), (∀ a ∈ l, (f a).isSome) → (l.filterMap f).length = l.length := by
  intro l
  induction l with
  | nil => simp
  | cons a rest ih =>
    intro h
    rcases Option.isSome_iff_exists.mp (h a (by simp)) with ⟨b, hb⟩
    simp only [List.filterMap_cons, hb, List.length_cons]
    rw [ih (fun x hx => h x (by simp [hx]))]

theorem range_map_getD {α : Type} (d : α) :
    ∀ (l : List α), (List.range l.length).map (fun i => l.getD i d) = l := by
  intro l
  induction l with
  | nil => simp
  | cons a rest ih =>
    rw [List.length_cons, List.range_succ_eq_map, List.map_cons, List.map_map]
    have hfe : ((fun i => (a :: rest).getD i d) ∘ (· + 1)) = (fun i => rest.getD i d) := by
      funext i
      simp
    rw [List.getD_cons_zero, hfe, ih]

/-! Association-list lemmas for the per-namespace builder map. -/

theorem findNs_addTx (acc : List (Nat × List Transaction)) (tx : Transaction) (k : Nat) :
    findNs (addTx acc tx) k =
      if k = tx.ns then some (((findNs acc tx.ns).getD []) ++ [tx]) else findNs acc k := by
  induction acc with
  | nil =>
    by_cases h : k = tx.ns
    · simp [addTx, findNs, h]
    · simp [addTx, findNs, h, Ne.symm h]
  | cons e rest ih =>
    by_cases h1 : e.1 = tx.ns
    · by_cases h2 : k = tx.ns
      · simp [addTx, findNs, h1, h2]
      · simp [addTx, findNs, h1, h2, Ne.symm h2]
    · by_cases h2 : e.1 = k
      · have h3 : ¬ k = tx.ns := fun hh => h1 (h2.trans hh)
        simp [addTx, findNs, h1, h2, h3]
      · simp [addTx, findNs, h1, h2, ih]

theorem keys_addTx (acc : List (Nat × List Transaction)) (tx : Transaction) :
    (addTx acc tx).map Prod.fst =
      if (findNs acc tx.ns).isSome then acc.map Prod.fst
      else acc.map Prod.fst ++ [tx.ns] := by
  induction acc with
  | nil => simp [addTx, findNs]
  | cons e rest ih =>
    by_cases h : e.1 = tx.ns
    · simp [addTx, findNs, h]
    · have hf : findNs (e :: rest) tx.ns = findNs rest tx.ns := by
        simp [findNs, h]
      rw [hf]
      have ha : addTx (e :: rest) tx = e :: addTx rest tx := by
        simp [addTx, h]
      rw [ha, List.map_cons, ih]
      by_cases h2 : (findNs rest tx.ns).isSome <;> simp [h2]

theorem findNs_isSome_iff (k : Nat) :
    ∀ (acc : List (Nat × List Transaction)),
      (findNs acc k).isSome ↔ k ∈ acc.map Prod.fst := by
  intro acc
  induction acc with
  | nil => simp [findNs]
  | cons e rest ih =>
    by_cases h : e.1 = k
    · simp [findNs, h]
    · simp [findNs, h, ih, Ne.symm h]

theorem nodup_keys_addTx (acc : List (Nat × List Transaction)) (tx : Transaction)
    (h : (acc.map Prod.fst).Nodup) : ((addTx acc tx).map Prod.fst).Nodup := by
  rw [keys_addTx]
  by_cases hs : (findNs acc tx.ns).isSome
  · simpa [hs] using h
  · have hmem : tx.ns ∉ acc.map Prod.fst := by
      rw [← findNs_isSome_iff]
      simpa using hs
    simp only [hs, Bool.false_eq_true, if_false]
    refine List.Nodup.append h (List.nodup_singleton _) ?_
    intro x hx hx2
    have : x = tx.ns := by simpa using hx2
    exact hmem (this ▸ hx)

theorem findNs_foldl_some (k : Nat) :
    ∀ (txs : List Transaction) (acc : List (Nat × List Transaction)) (v : List Transaction),
      findNs acc k = some v →
      findNs (List.foldl addTx acc txs) k = some (v ++ txs.filter (fun tx => tx.ns = k)) := by
  intro txs
  induction txs with
  | nil => intro acc v hv; simpa using hv
  | cons tx rest ih =>
    intro acc v hv
    rw [List.foldl_cons]
    by_cases h : tx.ns = k
    · subst h
      have h2 : findNs (addTx acc tx) tx.ns = some (v ++ [tx]) := by
        rw [findNs_addTx, if_pos rfl, hv]
        rfl
      have := ih (addTx acc tx) (v ++ [tx]) h2
      rw [this]
      simp [List.filter_cons]
    · have h2 : findNs (addTx acc tx) k = some v := by
        rw [findNs_addTx, if_neg (fun hh => h hh.symm)]
        exact hv
      rw [ih (addTx acc tx) v h2]
      simp [List.filter_cons, h]

theorem findNs_foldl_none (k : Nat) :
    ∀ (txs : List Transaction) (acc : List (Nat × List Transaction)),
      findNs acc k = none →
      findNs (List.foldl addTx acc txs) k =
        if (txs.filter (fun tx => tx.ns = k)).isEmpty then none
        else some (txs.filter (fun tx => tx.ns = k)) := by
  intro txs
  induction txs with
  | nil => intro acc hv; simpa using hv
  | cons tx rest ih =>
    intro acc hv
    rw [List.foldl_cons]
    by_cases h : tx.ns = k
    · subst h
      have h2 : findNs (addTx acc tx) tx.ns = some [tx] := by
        rw [findNs_addTx, if_pos rfl, hv]
        rfl
      rw [findNs_foldl_some tx.ns rest (addTx acc tx) [tx] h2]
      simp [List.filter_cons]
    · have h2 : findNs (addTx acc tx) k = none := by
        rw [findNs_addTx, if_neg (fun hh => h hh.symm)]
        exact hv
      rw [ih (addTx acc tx) h2]
      simp [List.filter_cons, h]

/-- Grouping: the builder for namespace k holds exactly the transactions of
namespace k, in input order. -/
theorem findNs_groupTxs (txs : List Transaction) (k : Nat) :
    findNs (groupTxs txs) k =
      if (txs.filter (fun tx => tx.ns = k)).isEmpty then none
      else some (txs.filter (fun tx => tx.ns = k)) := by
  exact findNs_foldl_none k txs [] rfl

theorem keys_foldl_addTx :
    ∀ (txs : List Transaction) (acc : List (Nat × List Transaction)),
      (List.foldl addTx acc txs).map Prod.fst =
        acc.map Prod.fst ++ dedupFirstAux (txs.map Transaction.ns) (acc.map Prod.fst) := by
  intro txs
  induction txs with
  | nil => intro acc; simp [dedupFirstAux]
  | cons tx rest ih =>
    intro acc
    rw [List.foldl_cons, ih (addTx acc tx), keys_addTx, List.map_cons]
    by_cases h : (findNs acc tx.ns).isSome
    · have hmem : tx.ns ∈ acc.map Prod.fst := (findNs_isSome_iff tx.ns acc).mp h
      simp [h, dedupFirstAux, hmem]
    · have hmem : tx.ns ∉ acc.map Prod.fst := by
        rw [← findNs_isSome_iff]
        simpa using h
      simp only [h, Bool.false_eq_true, if_false, dedupFirstAux, hmem, List.append_assoc]
      simp [hmem]

/-- Keys of the grouping are the namespaces in first-appearance order. -/
theorem keys_groupTxs (txs : List Transaction) :
    (groupTxs txs).map Prod.fst = nsFirstAppearance txs := by
  have := keys_foldl_addTx txs []
  simpa [groupTxs, nsFirstAppearance] using this

theorem nodup_keys_foldl (txs : List Transaction) :
    ∀ (acc : List (Nat × List Transaction)),
      (acc.map Prod.fst).Nodup → ((List.foldl addTx acc txs).map Prod.fst).Nodup := by
  induction txs with
  | nil => intro acc h; simpa using h
  | cons tx rest ih =>
    intro acc h
    rw [List.foldl_cons]
    exact ih (addTx acc tx) (nodup_keys_addTx acc tx h)

theorem nodup_keys_groupTxs (txs : List Transaction) :
    ((groupTxs txs).map Prod.fst).Nodup :=
  nodup_keys_foldl txs [] (by simp)

/-- An association list with distinct keys is the list of its keyed lookups. -/
theorem assoc_eq_map_keys :
    ∀ (l : List (Nat × List Transaction)), (l.map Prod.fst).Nodup →
      l = (l.map Prod.fst).map (fun k => (k, (findNs l k).getD [])) := by
  intro l
  induction l with
  | nil => intro _; rfl
  | cons e rest ih =>
    intro h
    have hnd : (rest.map Prod.fst).Nodup := (List.nodup_cons.mp (by simpa using h)).2
    have hni : e.1 ∉ rest.map Prod.fst := (List.nodup_cons.mp (by simpa using h)).1
    rw [List.map_cons, List.map_cons]
    have h1 : findNs (e :: rest) e.1 = some e.2 := by simp [findNs]
    have h2 : ∀ k ∈ rest.map Prod.fst, findNs (e :: rest) k = findNs rest k := by
      intro k hk
      have : e.1 ≠ k := fun hh => hni (hh ▸ hk)
      simp [findNs, this]
    have hcongr : (rest.map Prod.fst).map (fun k => (k, (findNs (e :: rest) k).getD [])) =
        (rest.map Prod.fst).map (fun k => (k, (findNs rest k).getD [])) := by
      exact List.map_congr_left (fun k hk => by rw [h2 k hk])
    rw [h1, hcongr, ← ih hnd]
    simp

/-- Under a valid iteration order the reorder picks each key's entry. -/
theorem reorder_eq_map (builders : List (Nat × List Transaction)) (order : List Nat)
    (h : ∀ k ∈ order, (findNs builders k).isSome) :
    reorder builders order = order.map (fun k => (k, (findNs builders k).getD [])) := by
  induction order with
  | nil => rfl
  | cons k rest ih =>
    rcases Option.isSome_iff_exists.mp (h k (by simp)) with ⟨v, hv⟩
    simp only [reorder, List.filterMap_cons, hv, Option.map_some]
    rw [← reorder]
    rw [ih (fun x hx => h x (by simp [hx]))]
    simp [hv]

/-- A valid iteration order enumerates the builder entries up to permutation. -/
theorem reorder_perm (builders : List (Nat × List Transaction)) (order : List Nat)
    (hnd : (builders.map Prod.fst).Nodup) (h : ValidOrder builders order) :
    (reorder builders order).Perm builders := by
  have hmem : ∀ k ∈ order, (findNs builders k).isSome := by
    intro k hk
    rw [findNs_isSome_iff]
    exact h.mem_iff.mp hk
  rw [reorder_eq_map builders order hmem]
  have hperm := List.Perm.map (fun k => (k, (findNs builders k).getD [])) h
  rw [← assoc_eq_map_keys builders hnd] at hperm
  exact hperm

/-! Build-loop lemmas: prefix truncation and byte accounting. -/

/-- Total payload byte length of a transaction list. -/
def sumPayloadLen (txs : List Transaction) : Nat :=
  (txs.map (fun tx => tx.payload.length)).sum

/-- Accounted byte contribution of one builder entry: table entry plus tx
count field, then per transaction its payload and one offset entry. -/
def entrySize (e : Nat × List Transaction) : Nat :=
  nsTableNsOverhead + nsPayloadFixedOverhead +
    (e.2.map (fun tx => tx.payload.length + nsPayloadTxOverhead)).sum

/-- Accounted byte contribution of a builder list. -/
def totalSize (builders : List (Nat × List Transaction)) : Nat :=
  (builders.map entrySize).sum

theorem totalSize_cons (e : Nat × List Transaction) (l : List (Nat × List Transaction)) :
    totalSize (e :: l) = entrySize e + totalSize l := by
  simp [totalSize]

theorem totalSize_addTx (acc : List (Nat × List Transaction)) (tx : Transaction) :
    totalSize (addTx acc tx) = totalSize acc + tx.payload.length + nsPayloadTxOverhead +
      (if (findNs acc tx.ns).isSome then 0 else nsTableNsOverhead + nsPayloadFixedOverhead) := by
  induction acc with
  | nil =>
    simp [addTx, findNs, totalSize, entrySize]
    omega
  | cons e rest ih =>
    by_cases h : e.1 = tx.ns
    · have ha : addTx (e :: rest) tx = (e.1, e.2 ++ [tx]) :: rest := by simp [addTx, h]
      have hf : findNs (e :: rest) tx.ns = some e.2 := by simp [findNs, h]
      rw [ha, hf, totalSize_cons, totalSize_cons]
      simp only [entrySize, List.map_append, List.sum_append, Option.isSome_some, if_pos]
      simp
      omega
    · have ha : addTx (e :: rest) tx = e :: addTx rest tx := by simp [addTx, h]
      have hf : findNs (e :: rest) tx.ns = findNs rest tx.ns := by simp [findNs, h]
      rw [ha, hf, totalSize_cons, totalSize_cons, ih]
      omega

theorem mem_keys_eq_isSome (acc : List (Nat × List Transaction)) (k : Nat) :
    (k ∈ acc.map Prod.fst) = ((findNs acc k).isSome = true) := by
  by_cases h : (findNs acc k).isSome
  · simp [h, (findNs_isSome_iff k acc).mp h]
  · have : k ∉ acc.map Prod.fst := fun hm => h ((findNs_isSome_iff k acc).mpr hm)
    simp [h, this]

theorem keys_addTx_if (acc : List (Nat × List Transaction)) (tx : Transaction) :
    (if (findNs acc tx.ns).isSome then acc.map Prod.fst else acc.map Prod.fst ++ [tx.ns]) =
      (addTx acc tx).map Prod.fst :=
  (keys_addTx acc tx).symm

theorem cost_foldl :
    ∀ (txs : List Transaction) (acc : List (Nat × List Transaction)) (used : Nat),
      costLoop txs (acc.map Prod.fst) used + totalSize acc =
        used + totalSize (List.foldl addTx acc txs) := by
  intro txs
  induction txs with
  | nil => intro acc used; simp [costLoop]
  | cons tx rest ih =>
    intro acc used
    rw [List.foldl_cons]
    simp only [costLoop, mem_keys_eq_isSome, keys_addTx_if]
    have hih := ih (addTx acc tx) (used + tx.payload.length + nsPayloadTxOverhead +
      (if (findNs acc tx.ns).isSome then 0 else nsTableNsOverhead + nsPayloadFixedOverhead))
    have hts := totalSize_addTx acc tx
    omega

/-- Accounted cost never decreases along the loop. -/
theorem costLoop_ge :
    ∀ (txs : List Transaction) (seen : List Nat) (used : Nat), used ≤ costLoop txs seen used := by
  intro txs
  induction txs with
  | nil => intro seen used; simp [costLoop]
  | cons tx rest ih =>
    intro seen used
    simp only [costLoop]
    exact le_trans (by omega) (ih _ _)

/-- When the whole input fits the budget, the loop consumes all of it. -/
theorem buildLoop_complete (maxLen : Nat) :
    ∀ (txs : List Transaction) (acc : List (Nat × List Transaction)) (used : Nat),
      costLoop txs (acc.map Prod.fst) used ≤ maxLen →
      buildLoop maxLen txs used acc = List.foldl addTx acc txs := by
  intro txs
  induction txs with
  | nil => intro acc used _; rfl
  | cons tx rest ih =>
    intro acc used h
    simp only [costLoop, mem_keys_eq_isSome, keys_addTx_if] at h
    have hrest := costLoop_ge rest ((addTx acc tx).map Prod.fst)
      (used + tx.payload.length + nsPayloadTxOverhead +
        (if (findNs acc tx.ns).isSome then 0 else nsTableNsOverhead + nsPayloadFixedOverhead))
    simp only [buildLoop]
    rw [if_neg (by omega)]
    exact ih (addTx acc tx) _ (by exact h)

/-- Number of input transactions accepted before the first budget overflow,
mirroring the loop's stopping rule. -/
def fitLoop (maxLen : Nat) : List Transaction → List Nat → Nat → Nat
  | [], _, _ => 0
  | tx :: rest, seen, used =>
    let used' := used + tx.payload.length + nsPayloadTxOverhead +
      (if tx.ns ∈ seen then 0 else nsTableNsOverhead + nsPayloadFixedOverhead)
    if maxLen < used' then 0
    else 1 + fitLoop maxLen rest (if tx.ns ∈ seen then seen else seen ++ [tx.ns]) used'

/-- Length of the accepted input prefix for a given budget. -/
def fitPrefixLen (maxLen : Nat) (txs : List Transaction) : Nat :=
  fitLoop maxLen txs [] nsTableFixedOverhead

/-- The loop stops at the first transaction that would overflow the budget:
its effect is that of running on the prefix measured by fitLoop, which fits,
while the next transaction (if any) would overflow. -/
theorem buildLoop_take (maxLen : Nat) :
    ∀ (txs : List Transaction) (acc : List (Nat × List Transaction)) (used : Nat),
      fitLoop maxLen txs (acc.map Prod.fst) used ≤ txs.length ∧
        buildLoop maxLen txs used acc =
          List.foldl addTx acc (txs.take (fitLoop maxLen txs (acc.map Prod.fst) used)) ∧
        (fitLoop maxLen txs (acc.map Prod.fst) used = 0 ∨
          costLoop (txs.take (fitLoop maxLen txs (acc.map Prod.fst) used))
            (acc.map Prod.fst) used ≤ maxLen) ∧
        (fitLoop maxLen txs (acc.map Prod.fst) used < txs.length →
          maxLen < costLoop (txs.take (fitLoop maxLen txs (acc.map Prod.fst) used + 1))
            (acc.map Prod.fst) used) := by
  intro txs
  induction txs with
  | nil =>
    intro acc used
    exact ⟨by simp [fitLoop], rfl, Or.inl rfl, by simp [fitLoop]⟩
  | cons tx rest ih =>
    intro acc used
    by_cases hover : maxLen < used + tx.payload.length + nsPayloadTxOverhead +
        (if (findNs acc tx.ns).isSome then 0 else nsTableNsOverhead + nsPayloadFixedOverhead)
    · have hf : fitLoop maxLen (tx :: rest) (acc.map Prod.fst) used = 0 := by
        simp only [fitLoop, mem_keys_eq_isSome]
        rw [if_pos hover]
      refine ⟨by simp [hf], ?_, Or.inl hf, ?_⟩
      · rw [hf]
        simp only [buildLoop, if_pos hover]
        rfl
      · intro _
        rw [hf]
        simp only [List.take_succ_cons, List.take_zero, costLoop, mem_keys_eq_isSome,
          keys_addTx_if]
        omega
    · have hf : fitLoop maxLen (tx :: rest) (acc.map Prod.fst) used =
          1 + fitLoop maxLen rest ((addTx acc tx).map Prod.fst)
            (used + tx.payload.length + nsPayloadTxOverhead +
              (if (findNs acc tx.ns).isSome then 0
               else nsTableNsOverhead + nsPayloadFixedOverhead)) := by
        simp only [fitLoop, mem_keys_eq_isSome, keys_addTx_if]
        rw [if_neg hover]
      rcases ih (addTx acc tx) (used + tx.payload.length + nsPayloadTxOverhead +
        (if (findNs acc tx.ns).isSome then 0 else nsTableNsOverhead + nsPayloadFixedOverhead))
        with ⟨hK, heq, hfit, hstop⟩
      rw [hf]
      rw [show (1 + fitLoop maxLen rest ((addTx acc tx).map Prod.fst)
        (used + tx.payload.length + nsPayloadTxOverhead +
          (if (findNs acc tx.ns).isSome then 0
           else nsTableNsOverhead + nsPayloadFixedOverhead))) =
        (fitLoop maxLen rest ((addTx acc tx).map Prod.fst)
          (used + tx.payload.length + nsPayloadTxOverhead +
            (if (findNs acc tx.ns).isSome then 0
             else nsTableNsOverhead + nsPayloadFixedOverhead)) + 1) from Nat.add_comm 1 _]
      refine ⟨by simpa using hK, ?_, ?_, ?_⟩
      · simp only [buildLoop, if_neg hover, List.take_succ_cons, List.foldl_cons]
        exact heq
      · right
        simp only [List.take_succ_cons, costLoop, mem_keys_eq_isSome, keys_addTx_if]
        rcases hfit with h0 | hle
        · rw [h0]
          simpa [costLoop] using not_lt.mp hover
        · exact hle
      · intro hlt
        simp only [List.take_succ_cons, costLoop, mem_keys_eq_isSome, keys_addTx_if]
        exact hstop (by simpa using hlt)

/-! Serialization closed forms and length accounting. -/

/-- Serialized bytes of one builder entry. -/
def blockBytesOf (e : Nat × List Transaction) : List Nat :=
  nsPayloadBuilderBytes e.2

/-- Table entries produced for a builder list starting at a given cumulative
offset. -/
def entriesFrom : List (Nat × List Transaction) → Nat → List (Nat × Nat)
  | [], _ => []
  | e :: rest, acc =>
    (e.1, acc + (blockBytesOf e).length) :: entriesFrom rest (acc + (blockBytesOf e).length)

theorem serializeLoop_spec :
    ∀ (l : List (Nat × List Transaction)) (pay : List Nat) (ents : List (Nat × Nat)),
      serializeLoop l pay ents =
        (pay ++ l.flatMap blockBytesOf, ents ++ entriesFrom l pay.length) := by
  intro l
  induction l with
  | nil => intro pay ents; simp [serializeLoop, entriesFrom]
  | cons e rest ih =>
    intro pay ents
    simp only [serializeLoop, entriesFrom, List.flatMap_cons]
    rw [ih]
    simp [blockBytesOf, List.append_assoc]

theorem cumEnds_length (txs : List Transaction) :
    ∀ acc, (cumEnds txs acc).length = txs.length := by
  induction txs with
  | nil => intro acc; rfl
  | cons tx rest ih => intro acc; simp [cumEnds, ih]

theorem length_nsPayloadBuilderBytes (txs : List Transaction) :
    (nsPayloadBuilderBytes txs).length = W + W * txs.length + sumPayloadLen txs := by
  simp only [nsPayloadBuilderBytes, List.length_append, length_toBytesLE]
  rw [length_flatMap_const (cumEnds txs 0) (toBytesLE W) W (fun a _ => length_toBytesLE W a),
    cumEnds_length]
  have : (txs.flatMap (fun tx => tx.payload)).length = sumPayloadLen txs := by
    rw [List.length_flatMap]
    rfl
  rw [this]

theorem length_nsTableBytes (ents : List (Nat × Nat)) :
    (nsTableBytes ents).length = W + (NS_ID_BYTE_LEN + W) * ents.length := by
  simp only [nsTableBytes, List.length_append, length_toBytesLE]
  rw [length_flatMap_const ents _ (NS_ID_BYTE_LEN + W)
    (fun e _ => by simp [length_toBytesLE])]

theorem entriesFrom_length :
    ∀ (l : List (Nat × List Transaction)) (acc : Nat), (entriesFrom l acc).length = l.length := by
  intro l
  induction l with
  | nil => intro acc; rfl
  | cons e rest ih => intro acc; simp [entriesFrom, ih]

theorem entrySize_eq_blockLen (e : Nat × List Transaction) :
    entrySize e = (blockBytesOf e).length + NS_ID_BYTE_LEN + W := by
  rw [entrySize, blockBytesOf, length_nsPayloadBuilderBytes]
  have : (e.2.map (fun tx => tx.payload.length + nsPayloadTxOverhead)).sum =
      sumPayloadLen e.2 + nsPayloadTxOverhead * e.2.length := by
    rw [sumPayloadLen]
    induction e.2 with
    | nil => simp
    | cons tx rest ih => simp [ih]; ring
  rw [this]
  simp [nsTableNsOverhead, nsPayloadFixedOverhead, nsPayloadTxOverhead]
  ring

/-- Total serialized size (payload plus table) of a builder list equals the
table fixed overhead plus the accounted size. -/
theorem serialized_size (l : List (Nat × List Transaction)) :
    (l.flatMap blockBytesOf).length + (nsTableBytes (entriesFrom l 0)).length =
      nsTableFixedOverhead + totalSize l := by
  rw [length_nsTableBytes, entriesFrom_length, List.length_flatMap, nsTableFixedOverhead]
  have : ∀ (ll : List (Nat × List Transaction)),
      (ll.map (List.length ∘ blockBytesOf)).sum + (NS_ID_BYTE_LEN + W) * ll.length =
        totalSize ll := by
    intro ll
    induction ll with
    | nil => simp [totalSize]
    | cons e rest ih =>
      rw [List.map_cons, List.sum_cons, totalSize_cons, ← ih, entrySize_eq_blockLen]
      simp only [List.length_cons, Function.comp_apply]
      ring
  have h2 := this l
  omega

/-! Parse-back lemmas: reading fields out of the serialized table and the
serialized namespace payloads. -/

theorem drop_concat_head {l1 l2 : List Nat} {a : Nat} (h : l1.length = a) (b : Nat) :
    (l1 ++ l2).drop (a + b) = l2.drop b := by
  subst h
  exact List.drop_append b

/-- Default transaction used with getD. -/
def dTx : Transaction := ⟨0, []⟩

theorem cumEnds_getD (txs : List Transaction) :
    ∀ (acc j : Nat), j < txs.length →
      (cumEnds txs acc).getD j 0 = acc + sumPayloadLen (txs.take (j + 1)) := by
  induction txs with
  | nil => intro acc j hj; simp at hj
  | cons tx rest ih =>
    intro acc j hj
    cases j with
    | zero => simp [cumEnds, sumPayloadLen]
    | succ j =>
      simp only [cumEnds, List.getD_cons_succ, List.take_succ_cons]
      rw [ih (acc + tx.payload.length) j (by simpa using hj)]
      simp [sumPayloadLen]
      ring

theorem sumPayloadLen_take_succ (txs : List Transaction) (j : Nat) (hj : j < txs.length) :
    sumPayloadLen (txs.take (j + 1)) =
      sumPayloadLen (txs.take j) + (txs.getD j dTx).payload.length := by
  rw [sumPayloadLen, sumPayloadLen, List.take_succ]
  have : txs[j]? = some (txs.getD j dTx) := by
    rw [List.getD, List.getElem?_eq_getElem hj]
    simp [List.get!]
    rw [List.getElem?_eq_getElem hj]
    rfl
  rw [this]
  simp

theorem sumPayloadLen_take_le (txs : List Transaction) (j : Nat) :
    sumPayloadLen (txs.take j) ≤ sumPayloadLen txs := by
  rw [sumPayloadLen, sumPayloadLen, List.map_take]
  calc ((txs.map (fun tx => tx.payload.length)).take j).sum
      ≤ ((txs.map (fun tx => tx.payload.length)).take j).sum +
        ((txs.map (fun tx => tx.payload.length)).drop j).sum := Nat.le_add_right _ _
    _ = (((txs.map (fun tx => tx.payload.length)).take j) ++
        ((txs.map (fun tx => tx.payload.length)).drop j)).sum := (List.sum_append).symm
    _ = (txs.map (fun tx => tx.payload.length)).sum := by rw [List.take_append_drop]

/-- Reading the tx count out of a serialized namespace payload. -/
theorem numTxsOf_builder (txs : List Transaction)
    (hn : txs.length < 2 ^ 32) :
    numTxsOf (nsPayloadBuilderBytes txs) = txs.length := by
  have hassoc : nsPayloadBuilderBytes txs =
      toBytesLE W txs.length ++ ((cumEnds txs 0).flatMap (toBytesLE W) ++
        txs.flatMap (fun tx => tx.payload)) := by
    rw [nsPayloadBuilderBytes, List.append_assoc]
  rw [numTxsOf, hassoc, take_append_len _ _ (length_toBytesLE W txs.length)]
  rw [fromBytesLE_toBytesLE_of_lt (by norm_num [W]; omega)]
  rw [← hassoc, length_nsPayloadBuilderBytes]
  have hW : 0 < W := by norm_num [W]
  have : (W + W * txs.length + sumPayloadLen txs - W) / W =
      txs.length + sumPayloadLen txs / W := by
    rw [show W + W * txs.length + sumPayloadLen txs - W =
      W * txs.length + sumPayloadLen txs by omega]
    exact Nat.mul_add_div hW txs.length (sumPayloadLen txs)
  rw [this]
  exact Nat.min_eq_left (Nat.le_add_right _ _)

/-- Reading a tx table offset out of a serialized namespace payload. -/
theorem txOffsetRaw_builder (txs : List Transaction) (j : Nat) (hj : j < txs.length) :
    txOffsetRaw (nsPayloadBuilderBytes txs) j =
      sumPayloadLen (txs.take (j + 1)) % 2 ^ 32 := by
  rw [txOffsetRaw, readBytesLE, nsPayloadBuilderBytes, List.append_assoc]
  rw [drop_concat_head (length_toBytesLE W txs.length) (j * W)]
  rw [List.drop_append_eq_append_drop]
  have hlen : ((cumEnds txs 0).flatMap (toBytesLE W)).length = W * txs.length := by
    rw [length_flatMap_const _ _ W (fun a _ => length_toBytesLE W a), cumEnds_length]
  have hle : j * W ≤ W * txs.length := by
    rw [Nat.mul_comm]
    exact Nat.mul_le_mul_left W (by omega)
  rw [show j * W - ((cumEnds txs 0).flatMap (toBytesLE W)).length = 0 by omega]
  rw [List.drop_zero, show j * W = W * j from Nat.mul_comm j W]
  rw [flatMap_drop_to_const (toBytesLE W) 0 W (length_toBytesLE W) (cumEnds txs 0) j
    (by rw [cumEnds_length]; exact hj)]
  rw [List.append_assoc, take_append_len _ _ (length_toBytesLE W _)]
  rw [fromBytesLE_toBytesLE, cumEnds_getD txs 0 j hj]
  norm_num [W]

/-- The byte range computed for the j-th transaction of a serialized
namespace payload is exactly its slot in the concatenated payloads. -/
theorem txRange_builder (txs : List Transaction) (j : Nat) (hj : j < txs.length)
    (hB : sumPayloadLen txs < 2 ^ 32) (hn : txs.length < 2 ^ 32) :
    txRange (nsPayloadBuilderBytes txs) j =
      (sumPayloadLen (txs.take j), sumPayloadLen (txs.take (j + 1))) := by
  have hnum := numTxsOf_builder txs hn
  have hbound : (nsPayloadBuilderBytes txs).length - (W + txs.length * W) =
      sumPayloadLen txs := by
    rw [length_nsPayloadBuilderBytes]
    rw [Nat.mul_comm txs.length W]
    omega
  rw [txRange]
  simp only [hnum, hbound]
  have hoffj := txOffsetRaw_builder txs j hj
  have hSj1 : sumPayloadLen (txs.take (j + 1)) ≤ sumPayloadLen txs := sumPayloadLen_take_le txs (j + 1)
  have hSj : sumPayloadLen (txs.take j) ≤ sumPayloadLen txs := sumPayloadLen_take_le txs j
  have hmod1 : sumPayloadLen (txs.take (j + 1)) % 2 ^ 32 = sumPayloadLen (txs.take (j + 1)) :=
    Nat.mod_eq_of_lt (by omega)
  rw [hoffj, hmod1]
  have he : min (sumPayloadLen (txs.take (j + 1))) (sumPayloadLen txs) =
      sumPayloadLen (txs.take (j + 1)) := by omega
  rw [he]
  cases j with
  | zero =>
    simp [sumPayloadLen]
  | succ j =>
    have hj' : j < txs.length := by omega
    have hoffjp := txOffsetRaw_builder txs j hj'
    simp only [Nat.add_sub_cancel, if_neg (Nat.succ_ne_zero j)]
    rw [hoffjp]
    have hmod2 : sumPayloadLen (txs.take (j + 1)) % 2 ^ 32 = sumPayloadLen (txs.take (j + 1)) :=
      Nat.mod_eq_of_lt (by omega)
    rw [hmod2]
    have hmono : sumPayloadLen (txs.take (j + 1)) ≤ sumPayloadLen (txs.take (j + 1 + 1)) := by
      rw [sumPayloadLen_take_succ txs (j + 1) (by omega)]
      omega
    have h1 : min (sumPayloadLen (txs.take (j + 1))) (sumPayloadLen txs) =
        sumPayloadLen (txs.take (j + 1)) := by omega
    rw [h1]
    congr 1
    omega

/-- Exporting the j-th transaction of a serialized namespace payload
recovers its payload bytes. -/
theorem exportTx_builder (txs : List Transaction) (j : Nat) (hj : j < txs.length)
    (hB : sumPayloadLen txs < 2 ^ 32) (hn : txs.length < 2 ^ 32) (nsId : Nat) :
    exportTx nsId (nsPayloadBuilderBytes txs) j =
      some ⟨nsId, (txs.getD j dTx).payload⟩ := by
  have hnum := numTxsOf_builder txs hn
  rw [exportTx, if_pos (by rw [hnum]; exact hj)]
  rw [txRange_builder txs j hj hB hn]
  simp only [hnum]
  congr 1
  have hpref : (toBytesLE W txs.length ++ (cumEnds txs 0).flatMap (toBytesLE W)).length =
      W + txs.length * W := by
    rw [List.length_append, length_toBytesLE,
      length_flatMap_const _ _ W (fun a _ => length_toBytesLE W a), cumEnds_length,
      Nat.mul_comm]
  have hsplit : nsPayloadBuilderBytes txs =
      (toBytesLE W txs.length ++ (cumEnds txs 0).flatMap (toBytesLE W)) ++
        txs.flatMap (fun tx => tx.payload) := by
    rw [nsPayloadBuilderBytes, List.append_assoc]
  rw [hsplit, drop_concat_head hpref (sumPayloadLen (txs.take j))]
  have hdrop := flatMap_drop_to (fun tx => tx.payload) dTx txs j hj
  have hsums : ((txs.take j).map (fun tx => tx.payload.length)).sum =
      sumPayloadLen (txs.take j) := rfl
  rw [hsums] at hdrop
  rw [hdrop]
  have hdiff : sumPayloadLen (txs.take (j + 1)) - sumPayloadLen (txs.take j) =
      (txs.getD j dTx).payload.length := by
    rw [sumPayloadLen_take_succ txs j hj]
    omega
  rw [hdiff, take_append_len _ _ rfl]

/-! Table-level parse-back lemmas. -/

/-- Serialized bytes of one table entry. -/
def entBytes (e : Nat × Nat) : List Nat :=
  toBytesLE NS_ID_BYTE_LEN e.1 ++ toBytesLE W e.2

theorem length_entBytes (e : Nat × Nat) : (entBytes e).length = NS_ID_BYTE_LEN + W := by
  simp [entBytes, length_toBytesLE]

/-- Cumulative serialized length of the first i builder entries. -/
def sumBlockLen (l : List (Nat × List Transaction)) : Nat :=
  (l.map (fun e => (blockBytesOf e).length)).sum

theorem sumBlockLen_take_le (l : List (Nat × List Transaction)) (j : Nat) :
    sumBlockLen (l.take j) ≤ sumBlockLen l := by
  rw [sumBlockLen, sumBlockLen, List.map_take]
  calc ((l.map (fun e => (blockBytesOf e).length)).take j).sum
      ≤ ((l.map (fun e => (blockBytesOf e).length)).take j).sum +
        ((l.map (fun e => (blockBytesOf e).length)).drop j).sum := Nat.le_add_right _ _
    _ = (((l.map (fun e => (blockBytesOf e).length)).take j) ++
        ((l.map (fun e => (blockBytesOf e).length)).drop j)).sum := (List.sum_append).symm
    _ = (l.map (fun e => (blockBytesOf e).length)).sum := by rw [List.take_append_drop]

/-- Default builder entry used with getD. -/
def dEnt : Nat × List Transaction := (0, [])

theorem sumBlockLen_take_succ (l : List (Nat × List Transaction)) (j : Nat)
    (hj : j < l.length) :
    sumBlockLen (l.take (j + 1)) =
      sumBlockLen (l.take j) + (blockBytesOf (l.getD j dEnt)).length := by
  rw [sumBlockLen, sumBlockLen, List.take_succ]
  have : l[j]? = some (l.getD j dEnt) := by
    rw [List.getD, List.getElem?_eq_getElem hj]
    simp [List.get!]
    rw [List.getElem?_eq_getElem hj]
    rfl
  rw [this]
  simp

theorem entriesFrom_getD (l : List (Nat × List Transaction)) :
    ∀ (acc j : Nat), j < l.length →
      (entriesFrom l acc).getD j (0, 0) =
        ((l.getD j dEnt).1, acc + sumBlockLen (l.take (j + 1))) := by
  induction l with
  | nil => intro acc j hj; simp at hj
  | cons e rest ih =>
    intro acc j hj
    cases j with
    | zero => simp [entriesFrom, sumBlockLen]
    | succ j =>
      simp only [entriesFrom, List.getD_cons_succ, List.take_succ_cons]
      rw [ih (acc + (blockBytesOf e).length) j (by simpa using hj)]
      simp [sumBlockLen]
      ring

/-- Reading the namespace count out of the serialized table. -/
theorem numNamespaces_builder (ents : List (Nat × Nat)) (hm : ents.length < 2 ^ 32) :
    NsTable.numNamespaces ⟨nsTableBytes ents⟩ = ents.length := by
  rw [NsTable.numNamespaces]
  simp only [nsTableBytes]
  rw [show ents.flatMap (fun e => toBytesLE NS_ID_BYTE_LEN e.1 ++ toBytesLE W e.2) =
    ents.flatMap entBytes from rfl]
  rw [take_append_len _ _ (length_toBytesLE W ents.length)]
  rw [fromBytesLE_toBytesLE_of_lt (by norm_num [W]; omega)]
  rw [List.length_append, length_toBytesLE,
    length_flatMap_const ents entBytes (NS_ID_BYTE_LEN + W) (fun e _ => length_entBytes e)]
  have h12 : 0 < NS_ID_BYTE_LEN + W := by norm_num [NS_ID_BYTE_LEN, W]
  rw [show W + (NS_ID_BYTE_LEN + W) * ents.length - W = (NS_ID_BYTE_LEN + W) * ents.length by
    omega]
  rw [Nat.mul_div_cancel_left ents.length h12]
  exact Nat.min_eq_left (Nat.le_refl _)

/-- Reading the i-th namespace id out of the serialized table. -/
theorem readNsIdRaw_builder (ents : List (Nat × Nat)) (i : Nat) (hi : i < ents.length) :
    NsTable.readNsIdRaw ⟨nsTableBytes ents⟩ i = (ents.getD i (0, 0)).1 % 2 ^ 64 := by
  rw [NsTable.readNsIdRaw, readBytesLE]
  simp only [nsTableBytes]
  rw [show ents.flatMap (fun e => toBytesLE NS_ID_BYTE_LEN e.1 ++ toBytesLE W e.2) =
    ents.flatMap entBytes from rfl]
  rw [drop_concat_head (length_toBytesLE W ents.length) (i * (NS_ID_BYTE_LEN + W))]
  rw [show i * (NS_ID_BYTE_LEN + W) = (NS_ID_BYTE_LEN + W) * i from Nat.mul_comm _ _]
  rw [flatMap_drop_to_const entBytes (0, 0) (NS_ID_BYTE_LEN + W) length_entBytes ents i hi]
  rw [entBytes, List.append_assoc, take_append_len _ _ (length_toBytesLE NS_ID_BYTE_LEN _)]
  rw [fromBytesLE_toBytesLE]
  norm_num [NS_ID_BYTE_LEN]

/-- Reading the i-th end offset out of the serialized table. -/
theorem readNsOffsetRaw_builder (ents : List (Nat × Nat)) (i : Nat) (hi : i < ents.length) :
    NsTable.readNsOffsetRaw ⟨nsTableBytes ents⟩ i = (ents.getD i (0, 0)).2 % 2 ^ 32 := by
  rw [NsTable.readNsOffsetRaw, readBytesLE]
  simp only [nsTableBytes]
  rw [show ents.flatMap (fun e => toBytesLE NS_ID_BYTE_LEN e.1 ++ toBytesLE W e.2) =
    ents.flatMap entBytes from rfl]
  rw [← List.drop_drop]
  rw [drop_concat_head (length_toBytesLE W ents.length) (i * (NS_ID_BYTE_LEN + W))]
  rw [show i * (NS_ID_BYTE_LEN + W) = (NS_ID_BYTE_LEN + W) * i from Nat.mul_comm _ _]
  rw [flatMap_drop_to_const entBytes (0, 0) (NS_ID_BYTE_LEN + W) length_entBytes ents i hi]
  rw [entBytes, List.append_assoc]
  rw [drop_append_len _ _ (length_toBytesLE NS_ID_BYTE_LEN _)]
  rw [take_append_len _ _ (length_toBytesLE W _)]
  rw [fromBytesLE_toBytesLE]
  norm_num [W]

/-! Composition: the payload built from a serialized builder list parses back
to exactly its transactions. -/

/-- The payload assembled by the serialization loop. -/
def builtPayload (l : List (Nat × List Transaction)) : Payload :=
  ⟨(serializeLoop l [] []).1, ⟨nsTableBytes (serializeLoop l [] []).2⟩⟩

theorem builtPayload_raw (l : List (Nat × List Transaction)) :
    (builtPayload l).raw_payload = l.flatMap blockBytesOf := by
  rw [builtPayload, serializeLoop_spec]
  simp

theorem builtPayload_table (l : List (Nat × List Transaction)) :
    (builtPayload l).ns_table = ⟨nsTableBytes (entriesFrom l 0)⟩ := by
  rw [builtPayload, serializeLoop_spec]
  simp

theorem builtPayload_byteLen (l : List (Nat × List Transaction)) :
    (builtPayload l).byteLen = sumBlockLen l := by
  rw [Payload.byteLen, builtPayload_raw, List.length_flatMap, sumBlockLen]
  rfl

theorem blockBytesOf_len_ge (e : Nat × List Transaction) : W ≤ (blockBytesOf e).length := by
  rw [blockBytesOf, length_nsPayloadBuilderBytes]
  omega

theorem length_le_sumBlockLen (l : List (Nat × List Transaction)) :
    W * l.length ≤ sumBlockLen l := by
  induction l with
  | nil => simp [sumBlockLen]
  | cons e rest ih =>
    rw [sumBlockLen, List.map_cons, List.sum_cons]
    have hge := blockBytesOf_len_ge e
    rw [sumBlockLen] at ih
    simp only [List.length_cons]
    have hW : W = 4 := rfl
    rw [hW] at ih hge ⊢
    omega

theorem built_numNamespaces (l : List (Nat × List Transaction))
    (htot : sumBlockLen l < 2 ^ 32) :
    (builtPayload l).ns_table.numNamespaces = l.length := by
  rw [builtPayload_table]
  have hm : l.length < 2 ^ 32 := by
    have h1 := length_le_sumBlockLen l
    rw [show W = 4 from rfl] at h1
    omega
  rw [numNamespaces_builder (entriesFrom l 0) (by rw [entriesFrom_length]; exact hm),
    entriesFrom_length]

theorem built_nsRange (l : List (Nat × List Transaction)) (i : Nat) (hi : i < l.length)
    (htot : sumBlockLen l < 2 ^ 32) :
    (builtPayload l).ns_table.nsRange i (builtPayload l).byteLen =
      (sumBlockLen (l.take i), sumBlockLen (l.take (i + 1))) := by
  rw [builtPayload_table, builtPayload_byteLen, NsTable.nsRange]
  have hoff : ∀ j, j < l.length →
      NsTable.readNsOffsetRaw ⟨nsTableBytes (entriesFrom l 0)⟩ j =
        sumBlockLen (l.take (j + 1)) := by
    intro j hj
    rw [readNsOffsetRaw_builder (entriesFrom l 0) j (by rw [entriesFrom_length]; exact hj)]
    rw [entriesFrom_getD l 0 j hj]
    have hle := sumBlockLen_take_le l (j + 1)
    simp only [Nat.zero_add]
    exact Nat.mod_eq_of_lt (by omega)
  simp only [hoff i hi]
  have hS1 : sumBlockLen (l.take (i + 1)) ≤ sumBlockLen l := sumBlockLen_take_le l (i + 1)
  have he : min (sumBlockLen (l.take (i + 1))) (sumBlockLen l) =
      sumBlockLen (l.take (i + 1)) := by omega
  rw [he]
  cases i with
  | zero => simp [sumBlockLen]
  | succ i =>
    rw [if_neg (Nat.succ_ne_zero i)]
    simp only [Nat.add_sub_cancel]
    rw [hoff i (by omega)]
    have hSi : sumBlockLen (l.take (i + 1)) ≤ sumBlockLen l := sumBlockLen_take_le l (i + 1)
    have hmono : sumBlockLen (l.take (i + 1)) ≤ sumBlockLen (l.take (i + 1 + 1)) := by
      rw [sumBlockLen_take_succ l (i + 1) (by omega)]
      omega
    have h1 : min (sumBlockLen (l.take (i + 1))) (sumBlockLen l) =
        sumBlockLen (l.take (i + 1)) := by omega
    rw [h1]
    congr 1
    omega

theorem built_nsPayloadBytes (l : List (Nat × List Transaction)) (i : Nat) (hi : i < l.length)
    (htot : sumBlockLen l < 2 ^ 32) :
    (builtPayload l).nsPayloadBytes i = blockBytesOf (l.getD i dEnt) := by
  rw [Payload.nsPayloadBytes]
  have hr := built_nsRange l i hi htot
  rw [hr, builtPayload_raw]
  have hdrop := flatMap_drop_to blockBytesOf dEnt l i hi
  have hsums : ((l.take i).map (fun e => (blockBytesOf e).length)).sum =
      sumBlockLen (l.take i) := by
    rw [sumBlockLen]
  rw [hsums] at hdrop
  rw [hdrop]
  have hdiff : sumBlockLen (l.take (i + 1)) - sumBlockLen (l.take i) =
      (blockBytesOf (l.getD i dEnt)).length := by
    rw [sumBlockLen_take_succ l i hi]
    omega
  rw [hdiff, take_append_len _ _ rfl]

theorem built_readNsId (l : List (Nat × List Transaction)) (i : Nat) (hi : i < l.length)
    (htot : sumBlockLen l < 2 ^ 32) :
    (builtPayload l).ns_table.readNsId i = some ((l.getD i dEnt).1 % 2 ^ 64) := by
  rw [NsTable.readNsId, if_pos (by rw [built_numNamespaces l htot]; exact hi)]
  rw [builtPayload_table]
  rw [readNsIdRaw_builder (entriesFrom l 0) i (by rw [entriesFrom_length]; exact hi)]
  rw [entriesFrom_getD l 0 i hi]

theorem getD_mem_of_lt {α : Type} (l : List α) (d : α) (j : Nat) (h : j < l.length) :
    l.getD j d ∈ l := by
  rw [List.getD_eq_getElem l d h]
  exact List.getElem_mem h

theorem filterMap_eq_map_of_some {α β : Type} (f : α → Option β) (g : α → β) :
    ∀ (l : List α), (∀ a ∈ l, f a = some (g a)) → l.filterMap f = l.map g := by
  intro l
  induction l with
  | nil => intro _; rfl
  | cons a rest ih =>
    intro h
    rw [List.filterMap_cons, h a (by simp), List.map_cons,
      ih (fun x hx => h x (by simp [hx]))]

/-- Bounds on one entry's tx count and payload bytes, derived from the bound
on the whole serialized payload. -/
theorem built_entry_bounds (l : List (Nat × List Transaction)) (i : Nat) (hi : i < l.length)
    (htot : sumBlockLen l < 2 ^ 32) :
    (l.getD i dEnt).2.length < 2 ^ 32 ∧ sumPayloadLen (l.getD i dEnt).2 < 2 ^ 32 := by
  have h1 : (blockBytesOf (l.getD i dEnt)).length ≤ sumBlockLen l := by
    have h2 := sumBlockLen_take_succ l i hi
    have h3 := sumBlockLen_take_le l (i + 1)
    omega
  rw [blockBytesOf, length_nsPayloadBuilderBytes] at h1
  rw [show W = 4 from rfl] at h1
  omega

/-- Transactions of the built payload for an in-range index. -/
theorem built_transaction (l : List (Nat × List Transaction)) (i j : Nat)
    (hi : i < l.length) (hj : j < (l.getD i dEnt).2.length)
    (htot : sumBlockLen l < 2 ^ 32) :
    (builtPayload l).transaction ⟨i, j⟩ =
      some ⟨(l.getD i dEnt).1 % 2 ^ 64, ((l.getD i dEnt).2.getD j dTx).payload⟩ := by
  rw [Payload.transaction]
  simp only [built_readNsId l i hi htot]
  rw [built_nsPayloadBytes l i hi htot]
  rcases built_entry_bounds l i hi htot with ⟨hn, hB⟩
  rw [blockBytesOf]
  rw [exportTx_builder (l.getD i dEnt).2 j hj hB hn]

/-- Tx count of the i-th namespace view of the built payload. -/
theorem built_numTxs (l : List (Nat × List Transaction)) (i : Nat) (hi : i < l.length)
    (htot : sumBlockLen l < 2 ^ 32) :
    numTxsOf ((builtPayload l).nsPayloadBytes i) = (l.getD i dEnt).2.length := by
  rw [built_nsPayloadBytes l i hi htot, blockBytesOf]
  exact numTxsOf_builder _ (built_entry_bounds l i hi htot).1

/-- Iterating the built payload yields exactly the builder transactions, in
builder order. -/
theorem built_transactionsList (l : List (Nat × List Transaction))
    (htot : sumBlockLen l < 2 ^ 32)
    (hns : ∀ e ∈ l, ∀ tx ∈ e.2, tx.ns = e.1)
    (hid : ∀ e ∈ l, e.1 < 2 ^ 64) :
    (builtPayload l).transactionsList = l.flatMap (fun e => e.2) := by
  rw [Payload.transactionsList, Payload.iterIndices, built_numNamespaces l htot]
  rw [List.filterMap_flatMap]
  have hinner : ∀ i ∈ List.range l.length,
      ((List.range (numTxsOf ((builtPayload l).nsPayloadBytes i))).map
        (fun j => (⟨i, j⟩ : Index))).filterMap (builtPayload l).transaction =
      (l.getD i dEnt).2 := by
    intro i hir
    have hi : i < l.length := List.mem_range.mp hir
    rw [built_numTxs l i hi htot]
    rw [List.filterMap_map]
    have hall : ∀ j ∈ List.range (l.getD i dEnt).2.length,
        ((builtPayload l).transaction ∘ (fun j => (⟨i, j⟩ : Index))) j =
          some ((l.getD i dEnt).2.getD j dTx) := by
      intro j hjr
      have hj : j < (l.getD i dEnt).2.length := List.mem_range.mp hjr
      have htx := built_transaction l i j hi hj htot
      have hmem : (l.getD i dEnt).2.getD j dTx ∈ (l.getD i dEnt).2 :=
        getD_mem_of_lt _ dTx j hj
      have hnseq : ((l.getD i dEnt).2.getD j dTx).ns = (l.getD i dEnt).1 :=
        hns (l.getD i dEnt) (getD_mem_of_lt l dEnt i hi) _ hmem
      have hidlt : (l.getD i dEnt).1 < 2 ^ 64 := hid _ (getD_mem_of_lt l dEnt i hi)
      have hmod : (l.getD i dEnt).1 % 2 ^ 64 = (l.getD i dEnt).1 := Nat.mod_eq_of_lt hidlt
      simp only [Function.comp_apply, htx, hmod]
      congr 1
      cases hgd : (l.getD i dEnt).2.getD j dTx with
      | mk n pl =>
        rw [hgd] at hnseq
        simp at hnseq
        simp [hnseq]
    rw [filterMap_eq_map_of_some _ _ _ hall]
    exact range_map_getD dTx (l.getD i dEnt).2
  have hstep1 : (List.range l.length).flatMap
      (fun i => ((List.range (numTxsOf ((builtPayload l).nsPayloadBytes i))).map
        (fun j => (⟨i, j⟩ : Index))).filterMap (builtPayload l).transaction) =
      (List.range l.length).flatMap (fun i => (l.getD i dEnt).2) := by
    rw [List.flatMap_def, List.flatMap_def, List.map_congr_left hinner]
  rw [hstep1]
  conv_rhs => rw [← range_map_getD dEnt l]
  rw [List.flatMap_map]

/-! Top-level helpers tying the builder, the reorder and the parse-back
together. -/

theorem fromTransactionsWithOrder_ok (txs : List Transaction) (maxBlockSize usizeMax : Nat)
    (order : List Nat) (h : maxBlockSize ≤ usizeMax) :
    fromTransactionsWithOrder txs maxBlockSize usizeMax order =
      .ok (builtPayload (reorder (buildLoop maxBlockSize txs nsTableFixedOverhead []) order),
        (builtPayload (reorder (buildLoop maxBlockSize txs nsTableFixedOverhead []) order)).ns_table) := by
  rw [fromTransactionsWithOrder, if_neg (not_lt.mpr h)]
  rfl

theorem blockCost_eq_totalSize (txs : List Transaction) :
    blockCost txs = nsTableFixedOverhead + totalSize (groupTxs txs) := by
  have h := cost_foldl txs [] nsTableFixedOverhead
  simpa [blockCost, groupTxs, totalSize] using h

theorem sumBlockLen_eq_flatMap_length (l : List (Nat × List Transaction)) :
    sumBlockLen l = (l.flatMap blockBytesOf).length := by
  rw [List.length_flatMap]
  rfl

theorem dedupFirstAux_subset :
    ∀ (l seen : List Nat) (x : Nat), x ∈ dedupFirstAux l seen → x ∈ l := by
  intro l
  induction l with
  | nil => intro seen x hx; simp [dedupFirstAux] at hx
  | cons a rest ih =>
    intro seen x hx
    by_cases h : a ∈ seen
    · simp only [dedupFirstAux, if_pos h] at hx
      exact List.mem_cons_of_mem a (ih seen x hx)
    · simp only [dedupFirstAux, if_neg h] at hx
      rcases List.mem_cons.mp hx with h1 | h2
      · exact h1 ▸ List.mem_cons_self a rest
      · exact List.mem_cons_of_mem a (ih (seen ++ [a]) x h2)

theorem reorder_groupTxs_eq_map (txs : List Transaction) (order : List Nat)
    (hperm : ValidOrder (groupTxs txs) order) :
    reorder (groupTxs txs) order =
      order.map (fun k => (k, txs.filter (fun tx => tx.ns = k))) := by
  have hmem : ∀ k ∈ order, (findNs (groupTxs txs) k).isSome := by
    intro k hk
    rw [findNs_isSome_iff]
    exact hperm.mem_iff.mp hk
  rw [reorder_eq_map _ _ hmem]
  refine List.map_congr_left ?_
  intro k hk
  have hsome := hmem k hk
  rw [findNs_groupTxs] at hsome ⊢
  by_cases h : (txs.filter (fun tx => tx.ns = k)).isEmpty
  · rw [if_pos h] at hsome
    simp at hsome
  · rw [if_neg h]
    rfl

/-- Round-trip core: when nothing is truncated and every quantity fits its
wire field, building with a valid iteration order and then iterating yields
each namespace's transactions in input order, namespaces in iteration order. -/
theorem roundtrip_core (txs : List Transaction) (maxBlockSize usizeMax : Nat)
    (order : List Nat)
    (hU : maxBlockSize ≤ usizeMax) (h32 : maxBlockSize < 2 ^ 32)
    (hid : ∀ tx ∈ txs, tx.ns < 2 ^ 64)
    (hcost : blockCost txs ≤ maxBlockSize)
    (hord : ValidOrder (buildLoop maxBlockSize txs nsTableFixedOverhead []) order) :
    ∃ p t, fromTransactionsWithOrder txs maxBlockSize usizeMax order = .ok (p, t) ∧
      p.transactionsList = order.flatMap (fun k => txs.filter (fun tx => tx.ns = k)) ∧
      order.Perm (nsFirstAppearance txs) := by
  have hbl : buildLoop maxBlockSize txs nsTableFixedOverhead [] = groupTxs txs := by
    rw [groupTxs]
    exact buildLoop_complete maxBlockSize txs [] nsTableFixedOverhead (by exact hcost)
  rw [hbl] at hord
  have hl := reorder_groupTxs_eq_map txs order hord
  have hlperm : (reorder (groupTxs txs) order).Perm (groupTxs txs) :=
    reorder_perm _ _ (nodup_keys_groupTxs txs) hord
  have htotsize : totalSize (reorder (groupTxs txs) order) = totalSize (groupTxs txs) :=
    (hlperm.map entrySize).sum_eq
  have hsum : sumBlockLen (reorder (groupTxs txs) order) < 2 ^ 32 := by
    have hss := serialized_size (reorder (groupTxs txs) order)
    have hfl := sumBlockLen_eq_flatMap_length (reorder (groupTxs txs) order)
    have hbc := blockCost_eq_totalSize txs
    omega
  have hns : ∀ e ∈ reorder (groupTxs txs) order, ∀ tx ∈ e.2, tx.ns = e.1 := by
    rw [hl]
    intro e he tx htx
    rcases List.mem_map.mp he with ⟨k, _, hke⟩
    subst hke
    simp only at htx
    exact of_decide_eq_true (List.mem_filter.mp htx).2
  have hid2 : ∀ e ∈ reorder (groupTxs txs) order, e.1 < 2 ^ 64 := by
    rw [hl]
    intro e he
    rcases List.mem_map.mp he with ⟨k, hk, hke⟩
    subst hke
    have hkeys : k ∈ (groupTxs txs).map Prod.fst := hord.mem_iff.mp hk
    rw [keys_groupTxs] at hkeys
    have hksub : k ∈ txs.map Transaction.ns :=
      dedupFirstAux_subset (txs.map Transaction.ns) [] k hkeys
    rcases List.mem_map.mp hksub with ⟨tx, htx, hke2⟩
    exact hke2 ▸ hid tx htx
  refine ⟨builtPayload (reorder (groupTxs txs) order),
    (builtPayload (reorder (groupTxs txs) order)).ns_table, ?_, ?_, ?_⟩
  · rw [fromTransactionsWithOrder_ok txs maxBlockSize usizeMax order hU, hbl]
  · rw [built_transactionsList _ hsum hns hid2, hl, List.flatMap_map]
  · rw [← keys_groupTxs]
    exact hord

/-- Two inputs whose builder loops agree produce identical outputs. -/
theorem output_congr_builders (txs1 txs2 : List Transaction) (maxBlockSize usizeMax : Nat)
    (order : List Nat)
    (h : buildLoop maxBlockSize txs1 nsTableFixedOverhead [] =
      buildLoop maxBlockSize txs2 nsTableFixedOverhead []) :
    fromTransactionsWithOrder txs1 maxBlockSize usizeMax order =
      fromTransactionsWithOrder txs2 maxBlockSize usizeMax order := by
  rw [fromTransactionsWithOrder, fromTransactionsWithOrder, h]

theorem reorder_nil (order : List Nat) : reorder [] order = [] := by
  rw [reorder]
  refine List.filterMap_eq_nil_iff.mpr ?_
  intro k _
  simp [findNs]

/-- A budget below the fixed table overhead rejects the first transaction. -/
theorem buildLoop_small_budget (maxLen : Nat) (txs : List Transaction)
    (h : maxLen < nsTableFixedOverhead) :
    buildLoop maxLen txs nsTableFixedOverhead [] = [] := by
  cases txs with
  | nil => rfl
  | cons tx rest =>
    rw [buildLoop]
    rw [if_pos ?_]
    have h4 : nsTableFixedOverhead = 4 := rfl
    have ht : nsPayloadTxOverhead = 4 := rfl
    omega

/-- The empty namespace table bytes. -/
theorem nsTableBytes_nil : nsTableBytes [] = toBytesLE W 0 := by
  simp [nsTableBytes]

theorem builtPayload_nil : builtPayload [] = ⟨[], ⟨toBytesLE W 0⟩⟩ := by
  rw [builtPayload]
  simp [serializeLoop, entriesFrom, nsTableBytes]

theorem numNamespaces_emptyTable : NsTable.numNamespaces ⟨toBytesLE W 0⟩ = 0 := by
  rw [NsTable.numNamespaces]
  simp [toBytesLE, fromBytesLE]

/-- A Nodup list whose elements all equal c is empty or the singleton. -/
theorem nodup_all_eq (l : List Nat) (c : Nat) (hnd : l.Nodup) (hall : ∀ x ∈ l, x = c) :
    l = [] ∨ l = [c] := by
  cases l with
  | nil => exact Or.inl rfl
  | cons x rest =>
    right
    have hx : x = c := hall x (by simp)
    subst hx
    rcases List.nodup_cons.mp hnd with ⟨hni, _⟩
    cases rest with
    | nil => rfl
    | cons y rest2 =>
      have hy : y = x := hall y (by simp)
      subst hy
      simp at hni

/-- Indices produced by the iterator are in bounds. -/
theorem mem_iterIndices_bounds (p : Payload) (idx : Index) (h : idx ∈ p.iterIndices) :
    idx.ns < p.ns_table.numNamespaces ∧ idx.tx < numTxsOf (p.nsPayloadBytes idx.ns) := by
  rw [Payload.iterIndices] at h
  rcases List.mem_flatMap.mp h with ⟨i, hi, hmem⟩
  rcases List.mem_map.mp hmem with ⟨j, hj, hje⟩
  have hi2 := List.mem_range.mp hi
  have hj2 := List.mem_range.mp hj
  cases hje
  exact ⟨hi2, hj2⟩

/-- In-bounds transaction lookups always produce a value. -/
theorem transaction_isSome_of_bounds (p : Payload) (idx : Index)
    (h1 : idx.ns < p.ns_table.numNamespaces)
    (h2 : idx.tx < numTxsOf (p.nsPayloadBytes idx.ns)) :
    (p.transaction idx).isSome := by
  simp only [Payload.transaction, NsTable.readNsId, if_pos h1, exportTx, if_pos h2]
  rfl

/-! Claim theorems. -/

/-- C6: from_transactions returns the BlockBuilding error exactly when
max_block_size does not fit a native usize, and for every representable
max_block_size and every input it returns Ok. -/
theorem claim_C6_error_iff (txs : List Transaction) (maxBlockSize usizeMax : Nat)
    (order : List Nat) :
    (fromTransactionsWithOrder txs maxBlockSize usizeMax order = .error .BlockBuilding ↔
      usizeMax < maxBlockSize) ∧
    (maxBlockSize ≤ usizeMax →
      ∃ v, fromTransactionsWithOrder txs maxBlockSize usizeMax order = .ok v) := by
  constructor
  · constructor
    · intro h
      by_contra hc
      push_neg at hc
      rw [fromTransactionsWithOrder_ok txs _ _ _ hc] at h
      exact absurd h (by simp)
    · intro h
      rw [fromTransactionsWithOrder, if_pos h]
  · intro h
    exact ⟨_, fromTransactionsWithOrder_ok txs _ _ _ h⟩

/-- Witness for C6 at a concrete representable budget. -/
theorem claim_C6_witness :
    (5:Nat) ≤ 10 ∧ ∃ v, fromTransactionsWithOrder [] 5 10 [] = .ok v :=
  ⟨by decide, (claim_C6_error_iff [] 5 10 []).2 (by decide)⟩

/-- C7: from_bytes is a zero-validation move: the encoded bytes of the
result are exactly the input bytes (the table is metadata, never part of
the encoding) and the carried table is the given one. -/
theorem claim_C7_from_bytes (bytes : List Nat) (t : NsTable) :
    (Payload.fromBytes bytes t).encode = bytes ∧ (Payload.fromBytes bytes t).ns_table = t :=
  ⟨rfl, rfl⟩

/-- C8: transaction lookup returns absence exactly when the namespace index
is not below the number of table entries or the tx index is at or above
that namespace's clamped tx count; in bounds it returns a value. -/
theorem claim_C8_transaction_oob (p : Payload) (idx : Index) :
    p.transaction idx = none ↔
      (p.ns_table.numNamespaces ≤ idx.ns ∨
        numTxsOf (p.nsPayloadBytes idx.ns) ≤ idx.tx) := by
  by_cases h1 : idx.ns < p.ns_table.numNamespaces
  · by_cases h2 : idx.tx < numTxsOf (p.nsPayloadBytes idx.ns)
    · have hs := transaction_isSome_of_bounds p idx h1 h2
      constructor
      · intro h
        rw [h] at hs
        simp at hs
      · intro h
        rcases h with h | h <;> omega
    · constructor
      · intro _
        right
        omega
      · intro _
        simp only [Payload.transaction, NsTable.readNsId, if_pos h1, exportTx, if_neg h2]
  · constructor
    · intro _
      left
      omega
    · intro _
      simp only [Payload.transaction, NsTable.readNsId, if_neg h1]

/-- C10: len consumes the iterator, so it equals the number of transactions
the iterator yields, and txn_count is that same count as a u64. -/
theorem claim_C10_len_count (p : Payload) :
    p.qpLen = p.transactionsList.length ∧ p.txnCount = p.qpLen % 2 ^ 64 := by
  refine ⟨?_, rfl⟩
  rw [Payload.qpLen, Payload.transactionsList]
  symm
  refine filterMap_all_some _ _ ?_
  intro idx hidx
  rcases mem_iterIndices_bounds p idx hidx with ⟨h1, h2⟩
  exact transaction_isSome_of_bounds p idx h1 h2

/-- C4: the builder commitment is the SHA-256 of the three little-endian
u64 lengths followed by the payload bytes, the encoded table and the
encoded metadata (table bytes hashed twice when metadata is the table),
and it depends only on the payload bytes and the encoded table. -/
theorem claim_C4_commitment (p : Payload) (meta : NsTable) :
    builderCommitment p meta =
      sha256 (toBytesLE 8 p.raw_payload.length ++ toBytesLE 8 p.ns_table.encode.length ++
        toBytesLE 8 meta.encode.length ++ p.raw_payload ++ p.ns_table.encode ++ meta.encode) ∧
    (∀ q : Payload, p.raw_payload = q.raw_payload → p.ns_table.encode = q.ns_table.encode →
      builderCommitment p p.ns_table = builderCommitment q q.ns_table) := by
  refine ⟨rfl, ?_⟩
  intro q h1 h2
  rw [builderCommitment, builderCommitment, h1, h2]

/-- Witness for C4 at a concrete payload. -/
theorem claim_C4_witness :
    builderCommitment ⟨[1, 2], ⟨[5]⟩⟩ ⟨[5]⟩ =
      sha256 (toBytesLE 8 2 ++ toBytesLE 8 1 ++ toBytesLE 8 1 ++ [1, 2] ++ [5] ++ [5]) ∧
    builderCommitment ⟨[1, 2], ⟨[5]⟩⟩ ⟨[5]⟩ = builderCommitment ⟨[1, 2], ⟨[5]⟩⟩ ⟨[5]⟩ := by
  constructor
  · have h := (claim_C4_commitment ⟨[1, 2], ⟨[5]⟩⟩ ⟨[5]⟩).1
    simpa [NsTable.encode] using h
  · exact (claim_C4_commitment ⟨[1, 2], ⟨[5]⟩⟩ ⟨[5]⟩).2 ⟨[1, 2], ⟨[5]⟩⟩ rfl rfl

/-- C9: empty input gives the block with zero table entries and empty
payload, Payload::empty() returns exactly that block, and a budget below
the fixed table overhead gives the same empty block for any input, with no
error in any of these cases. -/
theorem claim_C9_empty (maxBlockSize usizeMax : Nat) (order : List Nat)
    (txs : List Transaction) :
    (maxBlockSize ≤ usizeMax →
      fromTransactionsWithOrder [] maxBlockSize usizeMax order =
        .ok (⟨[], ⟨toBytesLE W 0⟩⟩, ⟨toBytesLE W 0⟩)) ∧
    payloadEmpty = (⟨[], ⟨toBytesLE W 0⟩⟩, ⟨toBytesLE W 0⟩) ∧
    NsTable.numNamespaces ⟨toBytesLE W 0⟩ = 0 ∧
    (maxBlockSize ≤ usizeMax → maxBlockSize < nsTableFixedOverhead →
      fromTransactionsWithOrder txs maxBlockSize usizeMax order =
        .ok (⟨[], ⟨toBytesLE W 0⟩⟩, ⟨toBytesLE W 0⟩)) := by
  have hempty : ∀ (m u : Nat) (o : List Nat), m ≤ u →
      fromTransactionsWithOrder [] m u o = .ok (⟨[], ⟨toBytesLE W 0⟩⟩, ⟨toBytesLE W 0⟩) := by
    intro m u o h
    rw [fromTransactionsWithOrder_ok [] m u o h]
    have hb : buildLoop m [] nsTableFixedOverhead [] = [] := rfl
    rw [hb, reorder_nil, builtPayload_nil]
  refine ⟨hempty maxBlockSize usizeMax order, ?_, numNamespaces_emptyTable, ?_⟩
  · rw [payloadEmpty, hempty defaultMaxBlockSize USIZE_MAX [] (by decide)]
  · intro h h4
    rw [output_congr_builders txs [] maxBlockSize usizeMax order ?_]
    · exact hempty maxBlockSize usizeMax order h
    · rw [buildLoop_small_budget maxBlockSize txs h4]
      rfl

/-- Witness for C9 at a concrete sub-overhead budget and nonempty input. -/
theorem claim_C9_witness :
    ((3:Nat) ≤ 10 → fromTransactionsWithOrder [] 3 10 [] =
      .ok (⟨[], ⟨toBytesLE W 0⟩⟩, ⟨toBytesLE W 0⟩)) ∧
    payloadEmpty = (⟨[], ⟨toBytesLE W 0⟩⟩, ⟨toBytesLE W 0⟩) ∧
    NsTable.numNamespaces ⟨toBytesLE W 0⟩ = 0 ∧
    ((3:Nat) ≤ 10 → 3 < nsTableFixedOverhead →
      fromTransactionsWithOrder [⟨1, [7]⟩] 3 10 [] =
        .ok (⟨[], ⟨toBytesLE W 0⟩⟩, ⟨toBytesLE W 0⟩)) :=
  claim_C9_empty 3 10 [] [⟨1, [7]⟩]

/-- C5: the builder stops at the first transaction whose accounted cost
would overflow the budget: the output equals the output on the fitting
prefix (so that transaction and all later ones are dropped, covering the
single-oversized-transaction case), the prefix fits, the next transaction
would overflow, and no error is surfaced. -/
theorem claim_C5_truncation (txs : List Transaction) (maxBlockSize usizeMax : Nat)
    (order : List Nat) (hU : maxBlockSize ≤ usizeMax) :
    fitPrefixLen maxBlockSize txs ≤ txs.length ∧
    (fitPrefixLen maxBlockSize txs = 0 ∨
      blockCost (txs.take (fitPrefixLen maxBlockSize txs)) ≤ maxBlockSize) ∧
    (fitPrefixLen maxBlockSize txs < txs.length →
      maxBlockSize < blockCost (txs.take (fitPrefixLen maxBlockSize txs + 1))) ∧
    fromTransactionsWithOrder txs maxBlockSize usizeMax order =
      fromTransactionsWithOrder (txs.take (fitPrefixLen maxBlockSize txs))
        maxBlockSize usizeMax order ∧
    ∃ v, fromTransactionsWithOrder txs maxBlockSize usizeMax order = .ok v := by
  rcases buildLoop_take maxBlockSize txs [] nsTableFixedOverhead with ⟨hK, heq, hfit, hstop⟩
  simp only [List.map_nil] at hK heq hfit hstop
  have hfp : fitLoop maxBlockSize txs [] nsTableFixedOverhead =
      fitPrefixLen maxBlockSize txs := rfl
  rw [hfp] at hK heq hfit hstop
  refine ⟨hK, hfit, hstop, ?_, ⟨_, fromTransactionsWithOrder_ok txs _ _ _ hU⟩⟩
  refine output_congr_builders txs _ maxBlockSize usizeMax order ?_
  rcases hfit with h0 | hle
  · rw [heq, h0]
    simp [buildLoop]
  · rw [heq]
    exact (buildLoop_complete maxBlockSize _ [] nsTableFixedOverhead hle).symm

/-- Witness for C5 at the overflow-truncation scenario: two transactions of
100 bytes each with a budget that only fits the first. -/
theorem claim_C5_witness :
    fitPrefixLen 130 [⟨1, List.replicate 100 120⟩, ⟨1, List.replicate 100 121⟩] ≤ 2 ∧
    (fitPrefixLen 130 [⟨1, List.replicate 100 120⟩, ⟨1, List.replicate 100 121⟩] = 0 ∨
      blockCost ([⟨1, List.replicate 100 120⟩, ⟨1, List.replicate 100 121⟩].take
        (fitPrefixLen 130 [⟨1, List.replicate 100 120⟩, ⟨1, List.replicate 100 121⟩])) ≤ 130) ∧
    (fitPrefixLen 130 [⟨1, List.replicate 100 120⟩, ⟨1, List.replicate 100 121⟩] < 2 →
      130 < blockCost ([⟨1, List.replicate 100 120⟩, ⟨1, List.replicate 100 121⟩].take
        (fitPrefixLen 130 [⟨1, List.replicate 100 120⟩, ⟨1, List.replicate 100 121⟩] + 1))) ∧
    fromTransactionsWithOrder [⟨1, List.replicate 100 120⟩, ⟨1, List.replicate 100 121⟩]
        130 1000 [1] =
      fromTransactionsWithOrder ([⟨1, List.replicate 100 120⟩, ⟨1, List.replicate 100 121⟩].take
        (fitPrefixLen 130 [⟨1, List.replicate 100 120⟩, ⟨1, List.replicate 100 121⟩]))
        130 1000 [1] ∧
    ∃ v, fromTransactionsWithOrder [⟨1, List.replicate 100 120⟩, ⟨1, List.replicate 100 121⟩]
      130 1000 [1] = .ok v :=
  claim_C5_truncation [⟨1, List.replicate 100 120⟩, ⟨1, List.replicate 100 121⟩] 130 1000 [1]
    (by decide)

/-- C1 counterexample: at max_block_size = 0 (representable) the builder
returns the empty block whose encoded table alone is 4 bytes, exceeding
the budget. -/
theorem claim_C1_counterexample :
    ValidOrder (buildLoop 0 [] nsTableFixedOverhead []) [] ∧
    (fromTransactionsWithOrder [] 0 USIZE_MAX []).toOption.map
      (fun v => v.1.raw_payload.length + v.2.encode.length) = some 4 ∧
    ¬ ((4:Nat) ≤ 0) := by
  decide

/-- C1 (amended): for every input, iteration order and representable
max_block_size that is at least the fixed 4-byte table overhead, the
produced payload length plus the encoded table length is at most
max_block_size. -/
theorem claim_C1_byte_budget (txs : List Transaction) (maxBlockSize usizeMax : Nat)
    (order : List Nat) (p : Payload) (t : NsTable)
    (hfo : nsTableFixedOverhead ≤ maxBlockSize) (hU : maxBlockSize ≤ usizeMax)
    (hord : ValidOrder (buildLoop maxBlockSize txs nsTableFixedOverhead []) order)
    (hok : fromTransactionsWithOrder txs maxBlockSize usizeMax order = .ok (p, t)) :
    p.raw_payload.length + t.encode.length ≤ maxBlockSize := by
  rw [fromTransactionsWithOrder_ok txs maxBlockSize usizeMax order hU] at hok
  have hpair := Except.ok.inj hok
  have hp : p = builtPayload (reorder (buildLoop maxBlockSize txs nsTableFixedOverhead []) order) :=
    (congrArg Prod.fst hpair).symm
  have ht : t = (builtPayload (reorder (buildLoop maxBlockSize txs nsTableFixedOverhead []) order)).ns_table :=
    (congrArg Prod.snd hpair).symm
  subst hp
  subst ht
  rcases buildLoop_take maxBlockSize txs [] nsTableFixedOverhead with ⟨-, heq, hfit, -⟩
  simp only [List.map_nil] at heq hfit
  have hnd : ((buildLoop maxBlockSize txs nsTableFixedOverhead []).map Prod.fst).Nodup := by
    rw [heq]
    exact nodup_keys_foldl _ [] (by simp)
  have hlperm := reorder_perm _ order hnd hord
  have htots : totalSize (reorder (buildLoop maxBlockSize txs nsTableFixedOverhead []) order) =
      totalSize (buildLoop maxBlockSize txs nsTableFixedOverhead []) :=
    (hlperm.map entrySize).sum_eq
  have hss := serialized_size (reorder (buildLoop maxBlockSize txs nsTableFixedOverhead []) order)
  have hraw := builtPayload_raw (reorder (buildLoop maxBlockSize txs nsTableFixedOverhead []) order)
  have htablen : (builtPayload (reorder (buildLoop maxBlockSize txs nsTableFixedOverhead []) order)).ns_table.encode.length =
      (nsTableBytes (entriesFrom (reorder (buildLoop maxBlockSize txs nsTableFixedOverhead []) order) 0)).length := by
    rw [builtPayload_table]
    rfl
  rw [hraw, htablen]
  have hcost : nsTableFixedOverhead +
      totalSize (buildLoop maxBlockSize txs nsTableFixedOverhead []) ≤ maxBlockSize := by
    rcases hfit with h0 | hle
    · rw [heq, h0]
      simpa [totalSize] using hfo
    · rw [heq]
      have hbc := blockCost_eq_totalSize (txs.take (fitLoop maxBlockSize txs [] nsTableFixedOverhead))
      rw [groupTxs] at hbc
      have hbc2 : blockCost (txs.take (fitLoop maxBlockSize txs [] nsTableFixedOverhead)) ≤
          maxBlockSize := hle
      omega
  omega

/-- Witness for C1 at the empty input and a 4-byte budget. -/
theorem claim_C1_witness :
    nsTableFixedOverhead ≤ 4 ∧ (4:Nat) ≤ 10 ∧
    ValidOrder (buildLoop 4 [] nsTableFixedOverhead []) [] ∧
    fromTransactionsWithOrder [] 4 10 [] = .ok (⟨[], ⟨[0, 0, 0, 0]⟩⟩, ⟨[0, 0, 0, 0]⟩) ∧
    (⟨[], ⟨[0, 0, 0, 0]⟩⟩ : Payload).raw_payload.length +
      (⟨[0, 0, 0, 0]⟩ : NsTable).encode.length ≤ 4 :=
  ⟨by decide, by decide, by decide, by decide,
    claim_C1_byte_budget [] 4 10 [] ⟨[], ⟨[0, 0, 0, 0]⟩⟩ ⟨[0, 0, 0, 0]⟩
      (by decide) (by decide) (by decide) (by decide)⟩

/-- C2 counterexample: with the interleaved two-namespace input of the spec
and HashMap iteration order [3, 9] (a valid order), iterating the built
payload does not group namespaces in insertion order of first appearance. -/
theorem claim_C2_counterexample :
    ValidOrder (buildLoop 1000000 [⟨9, [97]⟩, ⟨3, [98, 98]⟩, ⟨9, [99, 99, 99]⟩]
      nsTableFixedOverhead []) [3, 9] ∧
    (fromTransactionsWithOrder [⟨9, [97]⟩, ⟨3, [98, 98]⟩, ⟨9, [99, 99, 99]⟩]
        1000000 USIZE_MAX [3, 9]).toOption.map (fun v => v.1.transactionsList) ≠
      some ((nsFirstAppearance [⟨9, [97]⟩, ⟨3, [98, 98]⟩, ⟨9, [99, 99, 99]⟩]).flatMap
        (fun k => [⟨9, [97]⟩, ⟨3, [98, 98]⟩, ⟨9, [99, 99, 99]⟩].filter
          (fun tx => tx.ns = k))) := by
  decide

/-- C2 (amended): for transactions with u64 namespace ids, a representable
max_block_size below 2^32 (so every count and offset fits its 4-byte wire
field), total accounted size within the budget and any valid HashMap
iteration order, building then iterating yields exactly the input
transactions, in input order within each namespace, with namespaces grouped
in the HashMap iteration order — a permutation of the first-appearance
order, not necessarily that order itself. -/
theorem claim_C2_roundtrip (txs : List Transaction) (maxBlockSize usizeMax : Nat)
    (order : List Nat)
    (hU : maxBlockSize ≤ usizeMax) (h32 : maxBlockSize < 2 ^ 32)
    (hid : ∀ tx ∈ txs, tx.ns < 2 ^ 64)
    (hcost : blockCost txs ≤ maxBlockSize)
    (hord : ValidOrder (buildLoop maxBlockSize txs nsTableFixedOverhead []) order) :
    ∃ p t, fromTransactionsWithOrder txs maxBlockSize usizeMax order = .ok (p, t) ∧
      p.transactionsList = order.flatMap (fun k => txs.filter (fun tx => tx.ns = k)) ∧
      order.Perm (nsFirstAppearance txs) :=
  roundtrip_core txs maxBlockSize usizeMax order hU h32 hid hcost hord

/-- Witness for C2 at the spec's interleaved scenario with iteration order
equal to first-appearance order. -/
theorem claim_C2_witness :
    (1000:Nat) ≤ USIZE_MAX ∧ (1000:Nat) < 2 ^ 32 ∧
    (∀ tx ∈ [⟨9, [97]⟩, ⟨3, [98, 98]⟩, ⟨9, [99, 99, 99]⟩], Transaction.ns tx < 2 ^ 64) ∧
    blockCost [⟨9, [97]⟩, ⟨3, [98, 98]⟩, ⟨9, [99, 99, 99]⟩] ≤ 1000 ∧
    ValidOrder (buildLoop 1000 [⟨9, [97]⟩, ⟨3, [98, 98]⟩, ⟨9, [99, 99, 99]⟩]
      nsTableFixedOverhead []) [9, 3] ∧
    ∃ p t, fromTransactionsWithOrder [⟨9, [97]⟩, ⟨3, [98, 98]⟩, ⟨9, [99, 99, 99]⟩]
        1000 USIZE_MAX [9, 3] = .ok (p, t) ∧
      p.transactionsList = [9, 3].flatMap
        (fun k => [⟨9, [97]⟩, ⟨3, [98, 98]⟩, ⟨9, [99, 99, 99]⟩].filter
          (fun tx => tx.ns = k)) ∧
      ([9, 3] : List Nat).Perm (nsFirstAppearance [⟨9, [97]⟩, ⟨3, [98, 98]⟩, ⟨9, [99, 99, 99]⟩]) :=
  ⟨by decide, by decide, by decide, by decide, by decide,
    claim_C2_roundtrip [⟨9, [97]⟩, ⟨3, [98, 98]⟩, ⟨9, [99, 99, 99]⟩] 1000 USIZE_MAX [9, 3]
      (by decide) (by decide) (by decide) (by decide) (by decide)⟩

/-- C3 counterexample: the same two-namespace input built twice with the two
possible HashMap iteration orders (both valid) produces byte-different
outputs, so from_transactions is not a function of the input and budget
alone. -/
theorem claim_C3_counterexample :
    ValidOrder (buildLoop 100 [⟨1, []⟩, ⟨2, []⟩] nsTableFixedOverhead []) [1, 2] ∧
    ValidOrder (buildLoop 100 [⟨1, []⟩, ⟨2, []⟩] nsTableFixedOverhead []) [2, 1] ∧
    (fromTransactionsWithOrder [⟨1, []⟩, ⟨2, []⟩] 100 USIZE_MAX [1, 2]).toOption ≠
      (fromTransactionsWithOrder [⟨1, []⟩, ⟨2, []⟩] 100 USIZE_MAX [2, 1]).toOption := by
  decide

/-- C3 (amended): the output is a function of the input, the budget and the
HashMap iteration order; in particular when all transactions share one
namespace the iteration order is forced and any two valid orders give
byte-identical outputs. -/
theorem claim_C3_determinism (txs : List Transaction) (maxBlockSize usizeMax c : Nat)
    (o1 o2 : List Nat)
    (hc : ∀ tx ∈ txs, tx.ns = c)
    (h1 : ValidOrder (buildLoop maxBlockSize txs nsTableFixedOverhead []) o1)
    (h2 : ValidOrder (buildLoop maxBlockSize txs nsTableFixedOverhead []) o2) :
    fromTransactionsWithOrder txs maxBlockSize usizeMax o1 =
      fromTransactionsWithOrder txs maxBlockSize usizeMax o2 := by
  suffices h : o1 = o2 by rw [h]
  rcases buildLoop_take maxBlockSize txs [] nsTableFixedOverhead with ⟨-, heq, -, -⟩
  simp only [List.map_nil] at heq
  have hkeys : (buildLoop maxBlockSize txs nsTableFixedOverhead []).map Prod.fst =
      dedupFirstAux ((txs.take (fitLoop maxBlockSize txs [] nsTableFixedOverhead)).map
        Transaction.ns) [] := by
    rw [heq]
    have := keys_foldl_addTx (txs.take (fitLoop maxBlockSize txs [] nsTableFixedOverhead)) []
    simpa using this
  have hall : ∀ x ∈ (buildLoop maxBlockSize txs nsTableFixedOverhead []).map Prod.fst,
      x = c := by
    intro x hx
    rw [hkeys] at hx
    have hx2 := dedupFirstAux_subset _ [] x hx
    rcases List.mem_map.mp hx2 with ⟨tx, htx, hxe⟩
    exact hxe ▸ hc tx (List.mem_of_mem_take htx)
  have hnd : ((buildLoop maxBlockSize txs nsTableFixedOverhead []).map Prod.fst).Nodup := by
    rw [heq]
    exact nodup_keys_foldl _ [] (by simp)
  have h1p : o1.Perm ((buildLoop maxBlockSize txs nsTableFixedOverhead []).map Prod.fst) := h1
  have h2p : o2.Perm ((buildLoop maxBlockSize txs nsTableFixedOverhead []).map Prod.fst) := h2
  rcases nodup_all_eq _ c hnd hall with hnil | hsing
  · rw [hnil] at h1p h2p
    rw [List.perm_nil.mp h1p, List.perm_nil.mp h2p]
  · rw [hsing] at h1p h2p
    rw [List.perm_singleton.mp h1p, List.perm_singleton.mp h2p]

/-- Witness for C3 at a concrete single-namespace input. -/
theorem claim_C3_witness :
    (∀ tx ∈ [⟨5, [1]⟩, ⟨5, [2]⟩], Transaction.ns tx = 5) ∧
    ValidOrder (buildLoop 100 [⟨5, [1]⟩, ⟨5, [2]⟩] nsTableFixedOverhead []) [5] ∧
    ValidOrder (buildLoop 100 [⟨5, [1]⟩, ⟨5, [2]⟩] nsTableFixedOverhead []) [5] ∧
    fromTransactionsWithOrder [⟨5, [1]⟩, ⟨5, [2]⟩] 100 200 [5] =
      fromTransactionsWithOrder [⟨5, [1]⟩, ⟨5, [2]⟩] 100 200 [5] :=
  ⟨by decide, by decide, by decide,
    claim_C3_determinism [⟨5, [1]⟩, ⟨5, [2]⟩] 100 200 5 [5] [5]
      (by decide) (by decide) (by decide)⟩

end EspressoBlock

